import Mathlib

/-!
# Verification of the CPU scheduling simulation engine

Shallow embedding of the scheduler core: the four scheduling policies
(`scheduleFCFS`, `scheduleSJF`, `schedulePriority`, `scheduleRoundRobin`),
the tick expander `segmentsToTicks` and the metrics calculator
`computeMetrics`, together with proofs of the specified properties
(partitioning of time, conservation of burst, non-preemption, queue
discipline of round robin, tie-breaking of SJF, termination, and the
derived-value functions).

Times are natural numbers (the engine works with non-negative integer
time units); process priorities are integers (lower value = higher
priority).  The JavaScript source sorts with `Array.prototype.sort`,
which is guaranteed stable, under comparators that induce total
preorders; this is modelled by the stable insertion sort `sortBy`.
-/

/-- A process, as handed to the engine: identifier, arrival time, total
CPU burst and (for the priority policy) a numeric priority where a lower
value means a higher priority. -/
structure Process where
  id : String
  arrival : Nat
  burst : Nat
  priority : Int
deriving DecidableEq, Repr

/-- One segment of the produced schedule: a half-open time interval
`[start, stop)` owned by the process `pid`, or by the reserved idle
sentinel `"IDLE"`.  (The source calls the upper bound `end`, which is a
reserved word in Lean, hence `stop`.) -/
structure Segment where
  pid : String
  start : Nat
  stop : Nat
deriving DecidableEq, Repr

/-- Insert `a` into `l` in front of the first element `b` with
`le a b`; the insertion step of a stable insertion sort. -/
def insertBy (le : α → α → Bool) (a : α) : List α → List α
  | [] => [a]
  | b :: bs => if le a b then a :: b :: bs else b :: insertBy le a bs

/-- Stable sort with respect to the Boolean comparator `le` (which must
be a total preorder to be meaningful): this is the behaviour of
JavaScript's stable `Array.prototype.sort` under the three-way
comparators the source builds with `by(key)` and for priorities. -/
def sortBy (le : α → α → Bool) : List α → List α
  | [] => []
  | a :: as => insertBy le a (sortBy le as)

/-- The comparator `by("arrival")` of the source: order by arrival time,
ties keeping input order (stability). -/
def byArrival (a b : Process) : Bool := a.arrival ≤ b.arrival

/-- The comparator `by("burst")` of the source: order by burst, ties
keeping input order (stability). -/
def byBurst (a b : Process) : Bool := a.burst ≤ b.burst

/-- The priority comparator of the source,
`(a,b) => (a.priority - b.priority) || (a.arrival - b.arrival) || (a.burst - b.burst)`:
lexicographic on (priority, arrival, burst). -/
def prioLe (a b : Process) : Bool :=
  a.priority < b.priority ∨
    (a.priority = b.priority ∧
      (a.arrival < b.arrival ∨ (a.arrival = b.arrival ∧ a.burst ≤ b.burst)))

/-- The loop body of `scheduleFCFS`: walk the arrival-sorted process
list emitting an explicit idle segment whenever the cursor is behind the
next arrival, then the process's full burst as one segment. -/
def fcfsGo : Nat → List Process → List Segment
  | _, [] => []
  | time, p :: rest =>
    if time < p.arrival then
      Segment.mk "IDLE" time p.arrival ::
        Segment.mk p.id p.arrival (p.arrival + p.burst) :: fcfsGo (p.arrival + p.burst) rest
    else
      Segment.mk p.id time (time + p.burst) :: fcfsGo (time + p.burst) rest

/-- `scheduleFCFS` from the source: sort by arrival (stable), then run
each process to completion in order, with explicit idle gaps. -/
def scheduleFCFS (processes : List Process) : List Segment :=
  fcfsGo 0 (sortBy byArrival processes)

theorem insertBy_length (le : α → α → Bool) (a : α) (l : List α) :
    (insertBy le a l).length = l.length + 1 := by
  induction l with
  | nil => rfl
  | cons b bs ih => simp only [insertBy]; split <;> simp [ih]

theorem sortBy_length (le : α → α → Bool) (l : List α) :
    (sortBy le l).length = l.length := by
  induction l with
  | nil => rfl
  | cons a as ih => simp [sortBy, insertBy_length, ih]

theorem sortBy_eq_nil {le : α → α → Bool} {l : List α} (h : sortBy le l = []) : l = [] := by
  have hl := sortBy_length le l
  rw [h] at hl
  exact List.length_eq_zero.mp hl.symm

theorem takeWhile_add_dropWhile_length (p : α → Bool) (l : List α) :
    (l.takeWhile p).length + (l.dropWhile p).length = l.length := by
  conv_rhs => rw [← List.takeWhile_append_dropWhile (p := p) (l := l)]
  rw [List.length_append]

/-- `1` when the pending list is non-empty and its head has not yet
arrived at `time`, else `0`.  Auxiliary component of the termination
measure of `readyRun`: an idle jump makes the head arrive. -/
def lateFlag (pending : List Process) (time : Nat) : Nat :=
  match pending with
  | [] => 0
  | p :: _ => if p.arrival ≤ time then 0 else 1

theorem lateFlag_le_one (pending : List Process) (time : Nat) :
    lateFlag pending time ≤ 1 := by
  cases pending with
  | nil => simp [lateFlag]
  | cons p rest => simp only [lateFlag]; split <;> omega

/-- The common loop of `scheduleSJF` and `schedulePriority` (the two
source functions are identical except for the comparator applied to the
ready list).  `pending` is the arrival-sorted not-yet-scanned suffix,
`ready` the ready list carried over from the previous iteration.  Each
iteration moves every pending process with `arrival ≤ time` to the back
of the ready list; if the ready list is empty it emits an idle segment
up to the next arrival and jumps there, otherwise it stably sorts the
ready list by `le`, removes its head and runs it to completion. -/
def readyRun (le : Process → Process → Bool) :
    List Process → List Process → Nat → List Segment
  | pending, ready, time =>
    let moved := pending.takeWhile (fun p => p.arrival ≤ time)
    let pending' := pending.dropWhile (fun p => p.arrival ≤ time)
    match hs : sortBy le (ready ++ moved) with
    | [] =>
      match hp : pending' with
      | [] => []
      | p :: rest =>
        Segment.mk "IDLE" time p.arrival :: readyRun le (p :: rest) [] p.arrival
    | picked :: rs =>
      Segment.mk picked.id time (time + picked.burst) ::
        readyRun le pending' rs (time + picked.burst)
termination_by pending ready time => 2 * (pending.length + ready.length) + lateFlag pending time
decreasing_by
· have hrm := sortBy_eq_nil hs
  have hr : ready = [] := (List.append_eq_nil.mp hrm).1
  have hm : pending.takeWhile (fun p => p.arrival ≤ time) = [] :=
    (List.append_eq_nil.mp hrm).2
  have hd : pending.dropWhile (fun p => p.arrival ≤ time) = pending := by
    have hc := List.takeWhile_append_dropWhile
      (p := fun p : Process => decide (p.arrival ≤ time)) (l := pending)
    rw [hm] at hc; simpa using hc
  have hp' : List.dropWhile (fun p => decide (p.arrival ≤ time)) pending = p :: rest := hp
  rw [hd] at hp'
  subst hp'
  have hna : ¬ (p.arrival ≤ time) := by
    rw [List.takeWhile_cons] at hm
    by_contra hle
    simp [hle] at hm
  simp only [hr, lateFlag, List.length_cons, List.length_nil, le_refl, if_true, hna, if_false]
  omega
· have hlen : ready.length + (pending.takeWhile (fun p => p.arrival ≤ time)).length
      = rs.length + 1 := by
    have hl := sortBy_length le (ready ++ pending.takeWhile (fun p => p.arrival ≤ time))
    rw [hs] at hl; simp at hl; omega
  have hsplit := takeWhile_add_dropWhile_length
    (fun p : Process => decide (p.arrival ≤ time)) pending
  have hfl := lateFlag_le_one
    (pending.dropWhile (fun p => p.arrival ≤ time)) (time + picked.burst)
  omega

/-- `scheduleSJF` from the source: the ready-list loop selecting by
shortest burst (stable on ties). -/
def scheduleSJF (processes : List Process) : List Segment :=
  readyRun byBurst (sortBy byArrival processes) [] 0

/-- `schedulePriority` from the source: the ready-list loop selecting by
lowest priority value, ties by arrival then burst (stable beyond that). -/
def schedulePriority (processes : List Process) : List Segment :=
  readyRun prioLe (sortBy byArrival processes) [] 0

/-- The `remainingBurst` mapping of `scheduleRoundRobin`, modelling the
JavaScript `Map` from process id to remaining burst as an association
list whose keys are kept unique by construction. -/
abbrev BurstMap := List (String × Nat)

/-- `Map.prototype.get`: the value stored under `k`, if any. -/
def mapGet (m : BurstMap) (k : String) : Option Nat :=
  (m.find? (fun e => e.1 = k)).map (fun e => e.2)

/-- `Map.prototype.set`: overwrite the entry under `k`, or append a new
one. -/
def mapSet : BurstMap → String → Nat → BurstMap
  | [], k, v => [(k, v)]
  | e :: rest, k, v => if e.1 = k then (k, v) :: rest else e :: mapSet rest k v

/-- `Map.prototype.delete`: drop the entry under `k` (a no-op when there
is none). -/
def mapErase : BurstMap → String → BurstMap
  | [], _ => []
  | e :: rest, k => if e.1 = k then rest else e :: mapErase rest k

/-- `new Map(procs.map(p => [p.id, p.burst]))` of the source: entries in
iteration order, a later duplicate id overwriting an earlier one. -/
def buildMap (procs : List Process) : BurstMap :=
  procs.foldl (fun m p => mapSet m p.id p.burst) []

/-- Sum of the values stored in the map; the termination measure of the
round-robin loop is built from it. -/
def mapSum (m : BurstMap) : Nat := (m.map (fun e => e.2)).sum

theorem mapGet_cons_self (e : String × Nat) (rest : BurstMap) :
    mapGet (e :: rest) e.1 = some e.2 := by
  simp [mapGet, List.find?]

theorem mapGet_cons_ne {e : String × Nat} {k : String} (he : ¬ e.1 = k) (rest : BurstMap) :
    mapGet (e :: rest) k = mapGet rest k := by
  simp [mapGet, List.find?, he]

theorem mapSum_mapSet {m : BurstMap} {k : String} {r : Nat} (v : Nat)
    (h : mapGet m k = some r) : mapSum (mapSet m k v) + r = mapSum m + v := by
  induction m with
  | nil => simp [mapGet] at h
  | cons e rest ih =>
    by_cases he : e.1 = k
    · subst he
      rw [mapGet_cons_self] at h
      have hr : e.2 = r := by simpa using h
      subst hr
      simp [mapSet, mapSum]
      omega
    · have h' : mapGet rest k = some r := by rw [← mapGet_cons_ne he rest]; exact h
      simp only [mapSet, he, if_false, mapSum, List.map_cons, List.sum_cons]
      have hrec := ih h'
      simp only [mapSum] at hrec
      omega

theorem mapSum_mapErase {m : BurstMap} {k : String} {r : Nat}
    (h : mapGet m k = some r) : mapSum (mapErase m k) + r = mapSum m := by
  induction m with
  | nil => simp [mapGet] at h
  | cons e rest ih =>
    by_cases he : e.1 = k
    · subst he
      rw [mapGet_cons_self] at h
      have hr : e.2 = r := by simpa using h
      subst hr
      simp [mapErase, mapSum]
      omega
    · have h' : mapGet rest k = some r := by rw [← mapGet_cons_ne he rest]; exact h
      simp only [mapErase, he, if_false, mapSum, List.map_cons, List.sum_cons]
      have hrec := ih h'
      simp only [mapSum] at hrec
      omega

theorem mapErase_of_get_none {m : BurstMap} {k : String}
    (h : mapGet m k = none) : mapErase m k = m := by
  induction m with
  | nil => rfl
  | cons e rest ih =>
    by_cases he : e.1 = k
    · subst he; rw [mapGet_cons_self] at h; simp at h
    · have h' : mapGet rest k = none := by rw [← mapGet_cons_ne he rest]; exact h
      simp [mapErase, he, ih h']

theorem mapSum_mapErase_le (m : BurstMap) (k : String) :
    mapSum (mapErase m k) ≤ mapSum m := by
  induction m with
  | nil => simp [mapErase]
  | cons e rest ih =>
    simp only [mapErase]
    split
    · simp only [mapSum, List.map_cons, List.sum_cons]; omega
    · simp only [mapSum, List.map_cons, List.sum_cons] at ih ⊢; omega

theorem mapGet_pos_some {m : BurstMap} {k : String}
    (h : 0 < (mapGet m k).getD 0) : mapGet m k = some ((mapGet m k).getD 0) := by
  cases hg : mapGet m k with
  | none => rw [hg] at h; simp at h
  | some r => rfl

/-- The main loop of `scheduleRoundRobin` from the source.  With the
queue empty it jumps to the next pending arrival (emitting an explicit
idle segment only when the jump is non-trivial, as guarded in the
source) and enqueues the newly eligible arrivals; otherwise it dequeues
the head, runs it for `min q remaining` units, enqueues the arrivals
that occurred up to the new time, and only then re-appends the dequeued
process — and only if it still has remaining burst.  The positivity of
the quantum, which the source assumes (`q >= 1`, the orchestrator
clamps), is carried as the hypothesis `hq`; with `q = 0` the source
loop genuinely diverges. -/
def rrLoop (q : Nat) (hq : 1 ≤ q) :
    List Process → List Process → BurstMap → Nat → List Segment
  | [], [], _, _ => []
  | [], p :: rest, m, time =>
    let nextArrival := p.arrival
    let moved := (p :: rest).takeWhile (fun x => x.arrival ≤ nextArrival)
    let pending' := (p :: rest).dropWhile (fun x => x.arrival ≤ nextArrival)
    if time < nextArrival then
      Segment.mk "IDLE" time nextArrival :: rrLoop q hq moved pending' m nextArrival
    else
      rrLoop q hq moved pending' m nextArrival
  | current :: rest, pending, m, time =>
    let rem := (mapGet m current.id).getD 0
    let slice := min q rem
    let time' := time + slice
    let moved := pending.takeWhile (fun x => x.arrival ≤ time')
    let pending' := pending.dropWhile (fun x => x.arrival ≤ time')
    if 0 < rem - slice then
      Segment.mk current.id time time' ::
        rrLoop q hq (rest ++ moved ++ [current]) pending' (mapSet m current.id (rem - slice)) time'
    else
      Segment.mk current.id time time' ::
        rrLoop q hq (rest ++ moved) pending' (mapErase m current.id) time'
termination_by queue pending m time => 2 * mapSum m + queue.length + 2 * pending.length
decreasing_by
· have hsplit := takeWhile_add_dropWhile_length
    (fun x : Process => decide (x.arrival ≤ p.arrival)) (p :: rest)
  have hone : 1 ≤ ((p :: rest).takeWhile
      (fun x : Process => decide (x.arrival ≤ p.arrival))).length := by
    simp [List.takeWhile_cons]
  omega
· have hsplit := takeWhile_add_dropWhile_length
    (fun x : Process => decide (x.arrival ≤ p.arrival)) (p :: rest)
  have hone : 1 ≤ ((p :: rest).takeWhile
      (fun x : Process => decide (x.arrival ≤ p.arrival))).length := by
    simp [List.takeWhile_cons]
  omega
· rename_i hpos
  have hrem : 0 < (mapGet m current.id).getD 0 := by omega
  have hsome := mapGet_pos_some hrem
  have hset := mapSum_mapSet
    (v := (mapGet m current.id).getD 0 - min q ((mapGet m current.id).getD 0)) hsome
  have hsplit := takeWhile_add_dropWhile_length
    (fun x : Process =>
      decide (x.arrival ≤ time + min q ((mapGet m current.id).getD 0))) pending
  simp only [List.length_append, List.length_cons, List.length_nil]
  omega
· have hsplit := takeWhile_add_dropWhile_length
    (fun x : Process =>
      decide (x.arrival ≤ time + min q ((mapGet m current.id).getD 0))) pending
  have hle := mapSum_mapErase_le m current.id
  simp only [List.length_append, List.length_cons, List.length_nil]
  omega

/-- `scheduleRoundRobin` from the source: sort by arrival, build the
remaining-burst map, enqueue the arrivals at time 0 and run the loop. -/
def scheduleRoundRobin (processes : List Process) (q : Nat) (hq : 1 ≤ q) : List Segment :=
  let procs := sortBy byArrival processes
  let remainingBurst := buildMap procs
  let queue := procs.takeWhile (fun p => p.arrival ≤ 0)
  let pending := procs.dropWhile (fun p => p.arrival ≤ 0)
  rrLoop q hq queue pending remainingBurst 0

/-- `segmentsToTicks` from the source: one entry per time unit up to the
last segment's `end` (0 for an empty list), holding the pid of the first
segment covering that unit, or `"IDLE"` when no segment covers it. -/
def segmentsToTicks (segments : List Segment) : List String :=
  let maxT : Nat :=
    match segments.getLast? with
    | some s => s.stop
    | none => 0
  (List.range maxT).map (fun t =>
    match segments.find? (fun s => s.start ≤ t ∧ t < s.stop) with
    | some s => s.pid
    | none => "IDLE")

/-- The result record of `computeMetrics`.  The averages are exact
rationals; the source additionally passes each through
`Number.prototype.toFixed(2)` for display, a floating-point rounding
step that is not part of this integer/rational model. -/
structure Metrics where
  avgWaiting : ℚ
  avgTurnaround : ℚ
deriving DecidableEq, Repr

/-- The `finish` object of `computeMetrics`: walk the segments, skipping
idle ones, and store each segment's `end` under its pid — a later
segment overwrites an earlier one with the same pid. -/
def finishMap (segments : List Segment) : BurstMap :=
  segments.foldl (fun m s => if s.pid = "IDLE" then m else mapSet m s.pid s.stop) []

/-- `computeMetrics` from the source: per process, turnaround is the
recorded finish (0 when absent) minus arrival, waiting is turnaround
minus burst; both are totalled and divided by the number of processes,
with an empty set divided by 1. -/
def computeMetrics (processes : List Process) (segments : List Segment) : Metrics :=
  let finish := finishMap segments
  let totals : Int × Int := processes.foldl
    (fun acc p =>
      let tat : Int := ((mapGet finish p.id).getD 0 : Int) - (p.arrival : Int)
      let wt : Int := tat - (p.burst : Int)
      (acc.1 + wt, acc.2 + tat))
    (0, 0)
  let n : Nat := max processes.length 1
  { avgWaiting := (totals.1 : ℚ) / (n : ℚ), avgTurnaround := (totals.2 : ℚ) / (n : ℚ) }

theorem insertBy_perm (le : α → α → Bool) (a : α) (l : List α) :
    (insertBy le a l).Perm (a :: l) := by
  induction l with
  | nil => exact List.Perm.refl _
  | cons b bs ih =>
    simp only [insertBy]
    split
    · exact List.Perm.refl _
    · exact (ih.cons b).trans (List.Perm.swap a b bs)

theorem sortBy_perm (le : α → α → Bool) (l : List α) : (sortBy le l).Perm l := by
  induction l with
  | nil => exact List.Perm.refl _
  | cons a as ih => exact (insertBy_perm le a (sortBy le as)).trans (ih.cons a)

theorem mem_sortBy (le : α → α → Bool) {l : List α} {a : α} :
    a ∈ sortBy le l ↔ a ∈ l :=
  (sortBy_perm le l).mem_iff

/-- `chainFrom t segs`: the segments chain contiguously starting at
time `t` — each segment starts where the previous one (or `t`) ends,
and each has positive duration.  This is the invariant from the spec:
"the whole run is a contiguous partition of time from 0 to the
makespan, no gaps except explicitly represented idle segments". -/
def chainFrom : Nat → List Segment → Prop
  | _, [] => True
  | t, s :: rest => s.start = t ∧ t < s.stop ∧ chainFrom s.stop rest

instance instDecChainFrom : (t : Nat) → (segs : List Segment) → Decidable (chainFrom t segs)
  | _, [] => .isTrue trivial
  | t, s :: rest =>
    have : Decidable (chainFrom s.stop rest) := instDecChainFrom s.stop rest
    by unfold chainFrom; exact inferInstance

theorem chainFrom_chain' {t : Nat} {segs : List Segment} (h : chainFrom t segs) :
    List.Chain' (fun a b => a.stop = b.start) segs := by
  induction segs generalizing t with
  | nil => simp
  | cons s rest ih =>
    obtain ⟨hst, hlt, hrest⟩ := h
    cases rest with
    | nil => simp
    | cons s2 r2 => exact List.chain'_cons.mpr ⟨hrest.1.symm, ih hrest⟩

theorem chainFrom_pos {t : Nat} {segs : List Segment} (h : chainFrom t segs) :
    ∀ s ∈ segs, s.start < s.stop := by
  induction segs generalizing t with
  | nil => intro s hs; simp at hs
  | cons s0 rest ih =>
    obtain ⟨hst, hlt, hrest⟩ := h
    intro s hs
    rcases List.mem_cons.mp hs with rfl | hmem
    · omega
    · exact ih hrest s hmem

theorem chainFrom_head {t : Nat} {segs : List Segment} (h : chainFrom t segs)
    (hne : segs ≠ []) : (segs.head hne).start = t := by
  cases segs with
  | nil => exact absurd rfl hne
  | cons s rest => exact h.1

/-- The partition property of a full run, as the spec states it: each
segment's `end` is the next segment's `start` (hence also non-decreasing
starts and no gaps or overlaps: idle time is an explicit segment), every
segment has positive duration, and a non-empty run starts at time 0. -/
def Contiguous (segs : List Segment) : Prop :=
  List.Chain' (fun a b => a.stop = b.start) segs ∧
  (∀ s ∈ segs, s.start < s.stop) ∧
  (∀ hne : segs ≠ [], (segs.head hne).start = 0)

theorem chainFrom_contiguous {segs : List Segment} (h : chainFrom 0 segs) :
    Contiguous segs :=
  ⟨chainFrom_chain' h, chainFrom_pos h, fun hne => chainFrom_head h hne⟩

theorem fcfsGo_chain (time : Nat) (ps : List Process)
    (hb : ∀ p ∈ ps, 1 ≤ p.burst) : chainFrom time (fcfsGo time ps) := by
  induction ps generalizing time with
  | nil => trivial
  | cons p rest ih =>
    have hp : 1 ≤ p.burst := hb p (List.mem_cons_self p rest)
    have hb' : ∀ x ∈ rest, 1 ≤ x.burst := fun x hx => hb x (List.mem_cons_of_mem p hx)
    simp only [fcfsGo]
    split
    · refine ⟨rfl, ‹time < p.arrival›, rfl, ?_, ih _ hb'⟩
      show p.arrival < p.arrival + p.burst
      omega
    · refine ⟨rfl, ?_, ih _ hb'⟩
      show time < time + p.burst
      omega

theorem readyRun_eq_nil {le : Process → Process → Bool}
    {pending ready : List Process} {time : Nat}
    (hs : sortBy le (ready ++ pending.takeWhile (fun p => p.arrival ≤ time)) = [])
    (hp : pending.dropWhile (fun p => p.arrival ≤ time) = []) :
    readyRun le pending ready time = [] := by
  rw [readyRun]
  split
  · split
    · rfl
    · rename_i heq
      rw [hp] at heq
      simp at heq
  · rename_i heq
    rw [hs] at heq
    simp at heq

theorem readyRun_eq_idle {le : Process → Process → Bool}
    {pending ready : List Process} {time : Nat} {p : Process} {rest : List Process}
    (hs : sortBy le (ready ++ pending.takeWhile (fun x => x.arrival ≤ time)) = [])
    (hp : pending.dropWhile (fun x => x.arrival ≤ time) = p :: rest) :
    readyRun le pending ready time =
      Segment.mk "IDLE" time p.arrival :: readyRun le (p :: rest) [] p.arrival := by
  rw [readyRun]
  split
  · split
    · rename_i heq
      rw [hp] at heq
      simp at heq
    · rename_i p' rest' heq
      rw [hp] at heq
      cases heq
      rfl
  · rename_i heq
    rw [hs] at heq
    simp at heq

theorem readyRun_eq_pick {le : Process → Process → Bool}
    {pending ready : List Process} {time : Nat} {picked : Process} {rs : List Process}
    (hs : sortBy le (ready ++ pending.takeWhile (fun x => x.arrival ≤ time)) = picked :: rs) :
    readyRun le pending ready time =
      Segment.mk picked.id time (time + picked.burst) ::
        readyRun le (pending.dropWhile (fun x => x.arrival ≤ time)) rs (time + picked.burst) := by
  rw [readyRun]
  split
  · rename_i heq
    rw [hs] at heq
    simp at heq
  · rename_i picked' rs' heq
    rw [hs] at heq
    cases heq
    rfl

theorem rrLoop_eq_nil (q : Nat) (hq : 1 ≤ q) (m : BurstMap) (time : Nat) :
    rrLoop q hq [] [] m time = [] := by
  rw [rrLoop]

theorem rrLoop_eq_idle {q : Nat} (hq : 1 ≤ q) {p : Process} {rest : List Process}
    {m : BurstMap} {time : Nat} (ht : time < p.arrival) :
    rrLoop q hq [] (p :: rest) m time =
      Segment.mk "IDLE" time p.arrival ::
        rrLoop q hq ((p :: rest).takeWhile (fun x => x.arrival ≤ p.arrival))
          ((p :: rest).dropWhile (fun x => x.arrival ≤ p.arrival)) m p.arrival := by
  rw [rrLoop]
  simp only [ht, if_true]

theorem rrLoop_eq_jump {q : Nat} (hq : 1 ≤ q) {p : Process} {rest : List Process}
    {m : BurstMap} {time : Nat} (ht : ¬ time < p.arrival) :
    rrLoop q hq [] (p :: rest) m time =
      rrLoop q hq ((p :: rest).takeWhile (fun x => x.arrival ≤ p.arrival))
        ((p :: rest).dropWhile (fun x => x.arrival ≤ p.arrival)) m p.arrival := by
  rw [rrLoop]
  simp only [ht, if_false]

theorem rrLoop_eq_requeue {q : Nat} (hq : 1 ≤ q) {current : Process}
    {rest pending : List Process} {m : BurstMap} {time : Nat}
    (hrun : 0 < (mapGet m current.id).getD 0 - min q ((mapGet m current.id).getD 0)) :
    rrLoop q hq (current :: rest) pending m time =
      Segment.mk current.id time (time + min q ((mapGet m current.id).getD 0)) ::
        rrLoop q hq
          (rest ++ pending.takeWhile
              (fun x => x.arrival ≤ time + min q ((mapGet m current.id).getD 0)) ++ [current])
          (pending.dropWhile
              (fun x => x.arrival ≤ time + min q ((mapGet m current.id).getD 0)))
          (mapSet m current.id
            ((mapGet m current.id).getD 0 - min q ((mapGet m current.id).getD 0)))
          (time + min q ((mapGet m current.id).getD 0)) := by
  rw [rrLoop]
  simp only [hrun, if_true]

theorem rrLoop_eq_finish {q : Nat} (hq : 1 ≤ q) {current : Process}
    {rest pending : List Process} {m : BurstMap} {time : Nat}
    (hdone : ¬ 0 < (mapGet m current.id).getD 0 - min q ((mapGet m current.id).getD 0)) :
    rrLoop q hq (current :: rest) pending m time =
      Segment.mk current.id time (time + min q ((mapGet m current.id).getD 0)) ::
        rrLoop q hq
          (rest ++ pending.takeWhile
              (fun x => x.arrival ≤ time + min q ((mapGet m current.id).getD 0)))
          (pending.dropWhile
              (fun x => x.arrival ≤ time + min q ((mapGet m current.id).getD 0)))
          (mapErase m current.id)
          (time + min q ((mapGet m current.id).getD 0)) := by
  rw [rrLoop]
  simp only [hdone, if_false]

theorem dropWhile_cons_neg {p : α → Bool} {l : List α} {x : α} {xs : List α}
    (h : l.dropWhile p = x :: xs) : ¬ p x = true := by
  induction l with
  | nil => simp at h
  | cons a as ih =>
    rw [List.dropWhile_cons] at h
    split at h
    · exact ih h
    · cases h
      assumption

theorem mem_of_mem_dropWhile {p : α → Bool} {l : List α} {x : α}
    (h : x ∈ l.dropWhile p) : x ∈ l := (List.dropWhile_sublist p).subset h

theorem mem_of_mem_takeWhile {p : α → Bool} {l : List α} {x : α}
    (h : x ∈ l.takeWhile p) : x ∈ l := (List.takeWhile_sublist p).subset h

theorem readyRun_chain (le : Process → Process → Bool)
    (pending ready : List Process) (time : Nat)
    (hb : ∀ p ∈ pending ++ ready, 1 ≤ p.burst) :
    chainFrom time (readyRun le pending ready time) := by
  induction pending, ready, time using readyRun.induct le with
  | case1 pending ready time moved pending' hs hp =>
    rw [readyRun_eq_nil hs hp]
    trivial
  | case2 pending ready time moved pending' hs p rest hp ih =>
    rw [readyRun_eq_idle hs hp]
    have hlate : ¬ (p.arrival ≤ time) := by
      have := dropWhile_cons_neg hp
      simpa using this
    refine ⟨rfl, ?_, ?_⟩
    · show time < p.arrival
      omega
    show chainFrom p.arrival (readyRun le (p :: rest) [] p.arrival)
    refine ih ?_
    intro x hx
    refine hb x (List.mem_append.mpr (Or.inl ?_))
    rw [← hp] at hx
    exact mem_of_mem_dropWhile (by simpa using hx)
  | case3 pending ready time moved pending' picked rs hs ih =>
    rw [readyRun_eq_pick hs]
    have hmem : ∀ x ∈ ready ++ pending.takeWhile (fun p => p.arrival ≤ time),
        x ∈ pending ++ ready := by
      intro x hx
      rcases List.mem_append.mp hx with hxr | hxt
      · exact List.mem_append.mpr (Or.inr hxr)
      · exact List.mem_append.mpr (Or.inl (mem_of_mem_takeWhile hxt))
    have hpicked : picked ∈ pending ++ ready := by
      refine hmem picked ?_
      rw [← mem_sortBy le, hs]
      exact List.mem_cons_self _ _
    have hpb : 1 ≤ picked.burst := hb picked hpicked
    refine ⟨rfl, ?_, ?_⟩
    · show time < time + picked.burst
      omega
    · show chainFrom (time + picked.burst)
        (readyRun le (pending.dropWhile (fun x => x.arrival ≤ time)) rs (time + picked.burst))
      refine ih ?_
      intro x hx
      rcases List.mem_append.mp hx with hxd | hxs
      · exact hb x (List.mem_append.mpr (Or.inl (mem_of_mem_dropWhile hxd)))
      · refine hb x (hmem x ?_)
        rw [← mem_sortBy le, hs]
        exact List.mem_cons_of_mem _ hxs

theorem mapGet_mapSet_self (m : BurstMap) (k : String) (v : Nat) :
    mapGet (mapSet m k v) k = some v := by
  induction m with
  | nil => simp [mapSet, mapGet, List.find?]
  | cons e rest ih =>
    by_cases he : e.1 = k
    · simp [mapSet, he, mapGet, List.find?]
    · simp only [mapSet, he, if_false]
      rw [mapGet_cons_ne he]
      exact ih

theorem mapGet_mapSet_ne {k k' : String} (m : BurstMap) (v : Nat) (hne : k' ≠ k) :
    mapGet (mapSet m k v) k' = mapGet m k' := by
  induction m with
  | nil => simp [mapSet, mapGet, List.find?, Ne.symm hne]
  | cons e rest ih =>
    simp only [mapSet]
    split
    · rename_i he
      rw [mapGet_cons_ne (e := (k, v)) (Ne.symm hne),
        mapGet_cons_ne (e := e) (by rw [he]; exact Ne.symm hne)]
    · by_cases he' : e.1 = k'
      · subst he'
        rw [mapGet_cons_self, mapGet_cons_self]
      · rw [mapGet_cons_ne he', mapGet_cons_ne he']
        exact ih

theorem mapGet_mapErase_ne {k k' : String} (m : BurstMap) (hne : k' ≠ k) :
    mapGet (mapErase m k) k' = mapGet m k' := by
  induction m with
  | nil => rfl
  | cons e rest ih =>
    simp only [mapErase]
    split
    · rename_i he
      rw [mapGet_cons_ne (e := e) (by rw [he]; exact Ne.symm hne)]
    · by_cases he' : e.1 = k'
      · subst he'
        rw [mapGet_cons_self, mapGet_cons_self]
      · rw [mapGet_cons_ne he', mapGet_cons_ne he']
        exact ih

theorem dropWhile_arrival_gt {l : List Process} {t : Nat}
    (hs : l.Pairwise (fun a b => a.arrival ≤ b.arrival)) :
    ∀ x ∈ l.dropWhile (fun y => y.arrival ≤ t), t < x.arrival := by
  induction l with
  | nil => intro x hx; simp at hx
  | cons a as ih =>
    intro x hx
    rw [List.dropWhile_cons] at hx
    split at hx
    · exact ih hs.of_cons x hx
    · rename_i hna
      rcases List.mem_cons.mp hx with rfl | hmem
      · simp at hna; omega
      · have := (List.pairwise_cons.mp hs).1 x hmem
        simp at hna
        omega

theorem rrLoop_chain (q : Nat) (hq : 1 ≤ q)
    (queue pending : List Process) (m : BurstMap) (time : Nat)
    (hN : ((queue ++ pending).map (fun p => p.id)).Nodup)
    (hQ : ∀ p ∈ queue, ∃ r, mapGet m p.id = some r ∧ 1 ≤ r)
    (hP : ∀ p ∈ pending, ∃ r, mapGet m p.id = some r ∧ 1 ≤ r)
    (hT : ∀ p ∈ pending, time < p.arrival)
    (hS : pending.Pairwise (fun a b => a.arrival ≤ b.arrival)) :
    chainFrom time (rrLoop q hq queue pending m time) := by
  induction queue, pending, m, time using rrLoop.induct q hq with
  | case1 m time =>
    rw [rrLoop_eq_nil]
    trivial
  | case2 p rest m time nextArrival moved pending' ht ih =>
    rw [rrLoop_eq_idle hq ht]
    refine ⟨rfl, ?_, ?_⟩
    · show time < p.arrival
      exact ht
    have hsp : moved ++ pending' = p :: rest :=
      List.takeWhile_append_dropWhile (p := fun x : Process => decide (x.arrival ≤ p.arrival))
        (l := p :: rest)
    refine ih ?_ ?_ ?_ ?_ ?_
    · rw [List.map_append] at hN ⊢
      rw [← List.map_append, hsp]
      simpa using hN
    · intro x hx
      exact hP x (mem_of_mem_takeWhile hx)
    · intro x hx
      exact hP x (mem_of_mem_dropWhile hx)
    · intro x hx
      exact dropWhile_arrival_gt hS x hx
    · exact hS.sublist (List.dropWhile_sublist _)
  | case3 p rest m time nextArrival moved pending' ht ih =>
    exact absurd (hT p (List.mem_cons_self p rest)) ht
  | case4 current rest pending m time rem slice time' moved pending' hrun ih =>
    rw [rrLoop_eq_requeue hq hrun]
    obtain ⟨r, hr, hr1⟩ := hQ current (List.mem_cons_self current rest)
    have hrd : (mapGet m current.id).getD 0 = r := by rw [hr]; rfl
    have hNtail : current.id ∉ (rest ++ pending).map (fun p => p.id) ∧
        ((rest ++ pending).map (fun p => p.id)).Nodup := by
      rw [List.cons_append, List.map_cons, List.nodup_cons] at hN
      exact hN
    have hne : ∀ x ∈ rest ++ pending, x.id ≠ current.id := by
      intro x hx heq
      exact hNtail.1 (List.mem_map.mpr ⟨x, hx, heq⟩)
    have hsp : moved ++ pending' = pending :=
      List.takeWhile_append_dropWhile (p := fun x : Process => decide (x.arrival ≤ time'))
        (l := pending)
    refine ⟨rfl, ?_, ?_⟩
    · show time < time + min q ((mapGet m current.id).getD 0)
      omega
    have hperm : ((rest ++ moved ++ [current]) ++ pending').Perm
        (current :: (rest ++ pending)) := by
      have h1 : (rest ++ moved ++ [current]) ++ pending'
          = rest ++ (moved ++ (current :: pending')) := by
        simp [List.append_assoc]
      rw [h1]
      have hp1 : (rest ++ (moved ++ (current :: pending'))).Perm
          (rest ++ (current :: (moved ++ pending'))) :=
        List.Perm.append_left rest List.perm_middle
      rw [hsp] at hp1
      exact hp1.trans List.perm_middle
    refine ih ?_ ?_ ?_ ?_ ?_
    · have := (hperm.map (fun p => p.id)).nodup_iff
      refine this.mpr ?_
      simpa using hN
    · intro x hx
      rcases List.mem_append.mp hx with hx1 | hx2
      · rcases List.mem_append.mp hx1 with hx3 | hx4
        · have hxne := hne x (List.mem_append.mpr (Or.inl hx3))
          rw [mapGet_mapSet_ne m _ hxne]
          exact hQ x (List.mem_cons_of_mem _ hx3)
        · have hxp : x ∈ pending := mem_of_mem_takeWhile hx4
          have hxne := hne x (List.mem_append.mpr (Or.inr hxp))
          rw [mapGet_mapSet_ne m _ hxne]
          exact hP x hxp
      · have hxc : x = current := by simpa using hx2
        subst hxc
        rw [mapGet_mapSet_self]
        exact ⟨_, rfl, hrun⟩
    · intro x hx
      have hxp : x ∈ pending := mem_of_mem_dropWhile hx
      have hxne := hne x (List.mem_append.mpr (Or.inr hxp))
      rw [mapGet_mapSet_ne m _ hxne]
      exact hP x hxp
    · intro x hx
      exact dropWhile_arrival_gt hS x hx
    · exact hS.sublist (List.dropWhile_sublist _)
  | case5 current rest pending m time rem slice time' moved pending' hdone ih =>
    rw [rrLoop_eq_finish hq hdone]
    obtain ⟨r, hr, hr1⟩ := hQ current (List.mem_cons_self current rest)
    have hrd : (mapGet m current.id).getD 0 = r := by rw [hr]; rfl
    have hNtail : current.id ∉ (rest ++ pending).map (fun p => p.id) ∧
        ((rest ++ pending).map (fun p => p.id)).Nodup := by
      rw [List.cons_append, List.map_cons, List.nodup_cons] at hN
      exact hN
    have hne : ∀ x ∈ rest ++ pending, x.id ≠ current.id := by
      intro x hx heq
      exact hNtail.1 (List.mem_map.mpr ⟨x, hx, heq⟩)
    have hsp : moved ++ pending' = pending :=
      List.takeWhile_append_dropWhile (p := fun x : Process => decide (x.arrival ≤ time'))
        (l := pending)
    refine ⟨rfl, ?_, ?_⟩
    · show time < time + min q ((mapGet m current.id).getD 0)
      omega
    have heq2 : (rest ++ moved) ++ pending' = rest ++ pending := by
      rw [List.append_assoc, hsp]
    refine ih ?_ ?_ ?_ ?_ ?_
    · rw [heq2]
      exact hNtail.2
    · intro x hx
      rcases List.mem_append.mp hx with hx1 | hx2
      · have hxne := hne x (List.mem_append.mpr (Or.inl hx1))
        rw [mapGet_mapErase_ne m hxne]
        exact hQ x (List.mem_cons_of_mem _ hx1)
      · have hxp : x ∈ pending := mem_of_mem_takeWhile hx2
        have hxne := hne x (List.mem_append.mpr (Or.inr hxp))
        rw [mapGet_mapErase_ne m hxne]
        exact hP x hxp
    · intro x hx
      have hxp : x ∈ pending := mem_of_mem_dropWhile hx
      have hxne := hne x (List.mem_append.mpr (Or.inr hxp))
      rw [mapGet_mapErase_ne m hxne]
      exact hP x hxp
    · intro x hx
      exact dropWhile_arrival_gt hS x hx
    · exact hS.sublist (List.dropWhile_sublist _)

theorem insertBy_sorted_key (key : α → Nat) (a : α) (l : List α)
    (hl : l.Pairwise (fun x y => key x ≤ key y)) :
    (insertBy (fun x y => key x ≤ key y) a l).Pairwise (fun x y => key x ≤ key y) := by
  induction l with
  | nil => simp [insertBy]
  | cons b bs ih =>
    simp only [insertBy]
    split
    · rename_i hab
      simp only [decide_eq_true_eq] at hab
      refine List.pairwise_cons.mpr ⟨?_, hl⟩
      intro x hx
      rcases List.mem_cons.mp hx with rfl | hmem
      · exact hab
      · exact le_trans hab ((List.pairwise_cons.mp hl).1 x hmem)
    · rename_i hab
      simp only [decide_eq_true_eq] at hab
      refine List.pairwise_cons.mpr ⟨?_, ih (List.pairwise_cons.mp hl).2⟩
      intro x hx
      have hx' : x = a ∨ x ∈ bs := by
        have := (insertBy_perm (fun x y => key x ≤ key y) a bs).mem_iff.mp hx
        simpa using this
      rcases hx' with rfl | hmem
      · omega
      · exact (List.pairwise_cons.mp hl).1 x hmem

theorem sortBy_sorted_key (key : α → Nat) (l : List α) :
    (sortBy (fun x y => key x ≤ key y) l).Pairwise (fun x y => key x ≤ key y) := by
  induction l with
  | nil => simp [sortBy]
  | cons a as ih => exact insertBy_sorted_key key a _ ih

theorem sortBy_byArrival_sorted (l : List Process) :
    (sortBy byArrival l).Pairwise (fun a b => a.arrival ≤ b.arrival) :=
  sortBy_sorted_key (fun p : Process => p.arrival) l

theorem mapGet_foldl_not_mem (l : List Process) (m : BurstMap) (k : String)
    (hk : ∀ p ∈ l, p.id ≠ k) :
    mapGet (l.foldl (fun acc p => mapSet acc p.id p.burst) m) k = mapGet m k := by
  induction l generalizing m with
  | nil => rfl
  | cons a rest ih =>
    simp only [List.foldl_cons]
    rw [ih _ (fun p hp => hk p (List.mem_cons_of_mem a hp))]
    exact mapGet_mapSet_ne m a.burst (Ne.symm (hk a (List.mem_cons_self a rest)))

theorem buildMap_get_aux {p : Process} :
    ∀ (l : List Process) (m : BurstMap), p ∈ l → (l.map (fun x => x.id)).Nodup →
    mapGet (l.foldl (fun acc x => mapSet acc x.id x.burst) m) p.id = some p.burst := by
  intro l
  induction l with
  | nil => intro m hmem _; simp at hmem
  | cons a rest ih =>
    intro m hmem hN
    rw [List.map_cons, List.nodup_cons] at hN
    simp only [List.foldl_cons]
    rcases List.mem_cons.mp hmem with rfl | hmem'
    · rw [mapGet_foldl_not_mem]
      · exact mapGet_mapSet_self m p.id p.burst
      · intro x hx heq
        exact hN.1 (List.mem_map.mpr ⟨x, hx, heq⟩)
    · exact ih _ hmem' hN.2

theorem buildMap_get {l : List Process} {p : Process} (hmem : p ∈ l)
    (hN : (l.map (fun x => x.id)).Nodup) :
    mapGet (buildMap l) p.id = some p.burst :=
  buildMap_get_aux l [] hmem hN

theorem readyRun_nil_inv {le : Process → Process → Bool}
    {pending ready : List Process} {time : Nat}
    (h : readyRun le pending ready time = []) : pending = [] ∧ ready = [] := by
  match hs : sortBy le (ready ++ pending.takeWhile (fun p => p.arrival ≤ time)) with
  | picked :: rs =>
    rw [readyRun_eq_pick hs] at h
    simp at h
  | [] =>
    have hrm := sortBy_eq_nil hs
    obtain ⟨hr, hm⟩ := List.append_eq_nil.mp hrm
    match hp : pending.dropWhile (fun p => p.arrival ≤ time) with
    | p :: rest =>
      rw [readyRun_eq_idle hs hp] at h
      simp at h
    | [] =>
      have hpend : pending = [] := by
        have hc := List.takeWhile_append_dropWhile
          (p := fun p : Process => decide (p.arrival ≤ time)) (l := pending)
        rw [hm, hp] at hc
        simpa using hc.symm
      exact ⟨hpend, hr⟩

theorem rrLoop_nil_inv (q : Nat) (hq : 1 ≤ q)
    (queue pending : List Process) (m : BurstMap) (time : Nat)
    (h : rrLoop q hq queue pending m time = []) : queue = [] ∧ pending = [] := by
  induction queue, pending, m, time using rrLoop.induct q hq with
  | case1 m time => exact ⟨rfl, rfl⟩
  | case2 p rest m time nextArrival moved pending' ht ih =>
    rw [rrLoop_eq_idle hq ht] at h
    simp at h
  | case3 p rest m time nextArrival moved pending' ht ih =>
    rw [rrLoop_eq_jump hq ht] at h
    have hmv : (p :: rest).takeWhile (fun x : Process => decide (x.arrival ≤ p.arrival))
        = [] := (ih h).1
    rw [List.takeWhile_cons] at hmv
    simp at hmv
  | case4 current rest pending m time rem slice time' moved pending' hrun ih =>
    rw [rrLoop_eq_requeue hq hrun] at h
    simp at h
  | case5 current rest pending m time rem slice time' moved pending' hdone ih =>
    rw [rrLoop_eq_finish hq hdone] at h
    simp at h

theorem fcfsGo_ne_nil (time : Nat) (p : Process) (rest : List Process) :
    fcfsGo time (p :: rest) ≠ [] := by
  simp only [fcfsGo]
  split <;> simp

/-- The demo process set of the source application: `P1(0,4,prio 2)`,
`P2(1,3,prio 1)`, `P3(2,6,prio 3)`. -/
def demoProcs : List Process := [⟨"P1", 0, 4, 2⟩, ⟨"P2", 1, 3, 1⟩, ⟨"P3", 2, 6, 3⟩]

/-- C1: for every well-formed process set (unique ids, arrival ≥ 0 —
automatic for `Nat` arrivals — and burst ≥ 1) and every policy
(`scheduleFCFS`, `scheduleSJF`, `schedulePriority`, `scheduleRoundRobin`
with quantum `q ≥ 1`), the returned segment list is a contiguous
partition of time: each segment's `end` equals the next segment's
`start` (hence starts are non-decreasing and idle time is an explicit
`"IDLE"` segment, never a gap), every segment has `end > start`, and for
a non-empty process set the schedule is non-empty and its first segment
starts at 0 (the last conjunct of `Contiguous`). -/
theorem claim_C1 (ps : List Process) (q : Nat) (hq : 1 ≤ q)
    (hids : (ps.map (fun p => p.id)).Nodup)
    (hb : ∀ p ∈ ps, 1 ≤ p.burst) :
    (Contiguous (scheduleFCFS ps) ∧ (ps ≠ [] → scheduleFCFS ps ≠ [])) ∧
    (Contiguous (scheduleSJF ps) ∧ (ps ≠ [] → scheduleSJF ps ≠ [])) ∧
    (Contiguous (schedulePriority ps) ∧ (ps ≠ [] → schedulePriority ps ≠ [])) ∧
    (Contiguous (scheduleRoundRobin ps q hq) ∧
      (ps ≠ [] → scheduleRoundRobin ps q hq ≠ [])) := by
  have hsorted := sortBy_byArrival_sorted ps
  have hbs : ∀ p ∈ sortBy byArrival ps, 1 ≤ p.burst :=
    fun p hp => hb p ((mem_sortBy byArrival).mp hp)
  have hbs' : ∀ p ∈ sortBy byArrival ps ++ ([] : List Process), 1 ≤ p.burst := by
    intro p hp
    exact hbs p (by simpa using hp)
  have hlen : ps ≠ [] → sortBy byArrival ps ≠ [] := by
    intro hne hcon
    exact hne (sortBy_eq_nil hcon)
  have hids' : ((sortBy byArrival ps).map (fun p => p.id)).Nodup :=
    (((sortBy_perm byArrival ps).map (fun p => p.id)).nodup_iff).mpr hids
  refine ⟨⟨?_, ?_⟩, ⟨?_, ?_⟩, ⟨?_, ?_⟩, ⟨?_, ?_⟩⟩
  · exact chainFrom_contiguous (fcfsGo_chain 0 _ hbs)
  · intro hne
    cases hl : sortBy byArrival ps with
    | nil => exact absurd hl (hlen hne)
    | cons p rest =>
      show fcfsGo 0 (sortBy byArrival ps) ≠ []
      rw [hl]
      exact fcfsGo_ne_nil 0 p rest
  · exact chainFrom_contiguous (readyRun_chain byBurst _ [] 0 hbs')
  · intro hne hcon
    exact hlen hne (readyRun_nil_inv hcon).1
  · exact chainFrom_contiguous (readyRun_chain prioLe _ [] 0 hbs')
  · intro hne hcon
    exact hlen hne (readyRun_nil_inv hcon).1
  · refine chainFrom_contiguous (rrLoop_chain q hq
      ((sortBy byArrival ps).takeWhile (fun p => p.arrival ≤ 0))
      ((sortBy byArrival ps).dropWhile (fun p => p.arrival ≤ 0))
      (buildMap (sortBy byArrival ps)) 0 ?_ ?_ ?_ ?_ ?_)
    · rw [List.takeWhile_append_dropWhile]
      exact hids'
    · intro p hp
      have hmem := mem_of_mem_takeWhile hp
      exact ⟨p.burst, buildMap_get hmem hids', hbs p hmem⟩
    · intro p hp
      have hmem := mem_of_mem_dropWhile hp
      exact ⟨p.burst, buildMap_get hmem hids', hbs p hmem⟩
    · exact dropWhile_arrival_gt hsorted
    · exact hsorted.sublist (List.dropWhile_sublist _)
  · intro hne hcon
    have hinv := rrLoop_nil_inv q hq _ _ _ _ hcon
    refine hlen hne ?_
    rw [← List.takeWhile_append_dropWhile
      (p := fun p : Process => decide (p.arrival ≤ 0)) (l := sortBy byArrival ps),
      hinv.1, hinv.2]
    rfl

/-- Witness for C1 at the demo process set with quantum 2: the
hypotheses hold and the conclusion follows by the theorem. -/
theorem claim_C1_witness :
    ((demoProcs.map (fun p => p.id)).Nodup ∧ (∀ p ∈ demoProcs, 1 ≤ p.burst)) ∧
    (Contiguous (scheduleFCFS demoProcs) ∧
      Contiguous (scheduleSJF demoProcs) ∧
      Contiguous (schedulePriority demoProcs) ∧
      Contiguous (scheduleRoundRobin demoProcs 2 (by omega))) := by
  have h := claim_C1 demoProcs 2 (by omega) (by decide) (by decide)
  exact ⟨⟨by decide, by decide⟩, h.1.1, h.2.1.1, h.2.2.1.1, h.2.2.2.1⟩

/-- Total CPU time the schedule `segs` assigns to `pid`: the sum of the
durations of the segments bearing that pid. -/
def sumDur (pid : String) (segs : List Segment) : Nat :=
  ((segs.filter (fun s => s.pid = pid)).map (fun s => s.stop - s.start)).sum

/-- Number of segments of `segs` bearing `pid`. -/
def countPid (pid : String) (segs : List Segment) : Nat :=
  (segs.filter (fun s => s.pid = pid)).length

theorem filter_id_eq_singleton {l : List Process} {p : Process} (hmem : p ∈ l)
    (hN : (l.map (fun x => x.id)).Nodup) :
    l.filter (fun x => x.id = p.id) = [p] := by
  induction l with
  | nil => simp at hmem
  | cons a rest ih =>
    rw [List.map_cons, List.nodup_cons] at hN
    rcases List.mem_cons.mp hmem with rfl | hmem'
    · rw [List.filter_cons_of_pos (by simp)]
      have hrest : rest.filter (fun x => x.id = p.id) = [] := by
        rw [List.filter_eq_nil]
        intro x hx
        simp only [decide_eq_true_eq]
        intro heq
        exact hN.1 (List.mem_map.mpr ⟨x, hx, heq⟩)
      rw [hrest]
    · have hna : ¬ (a.id = p.id) := by
        intro heq
        exact hN.1 (heq ▸ List.mem_map.mpr ⟨p, hmem', rfl⟩)
      rw [List.filter_cons_of_neg (by simpa using hna)]
      exact ih hmem' hN.2

theorem fcfsGo_filter_perm (time : Nat) (ps : List Process) :
    ∀ pid, pid ≠ "IDLE" →
    (((fcfsGo time ps).filter (fun s => s.pid = pid)).map (fun s => s.stop - s.start)).Perm
      ((ps.filter (fun p => p.id = pid)).map (fun p => p.burst)) := by
  induction ps generalizing time with
  | nil => intro pid _; simp [fcfsGo]
  | cons p rest ih =>
    intro pid hpid
    simp only [fcfsGo]
    split
    · rw [List.filter_cons_of_neg (by simpa using Ne.symm hpid)]
      by_cases hpp : p.id = pid
      · rw [List.filter_cons_of_pos (by simpa using hpp),
          List.filter_cons_of_pos (by simpa using hpp)]
        simp only [List.map_cons]
        have hdur : (Segment.mk p.id p.arrival (p.arrival + p.burst)).stop
            - (Segment.mk p.id p.arrival (p.arrival + p.burst)).start = p.burst := by
          show p.arrival + p.burst - p.arrival = p.burst
          omega
        rw [hdur]
        exact (ih _ pid hpid).cons p.burst
      · rw [List.filter_cons_of_neg (by simpa using hpp),
          List.filter_cons_of_neg (by simpa using hpp)]
        exact ih _ pid hpid
    · by_cases hpp : p.id = pid
      · rw [List.filter_cons_of_pos (by simpa using hpp),
          List.filter_cons_of_pos (by simpa using hpp)]
        simp only [List.map_cons]
        have hdur : (Segment.mk p.id time (time + p.burst)).stop
            - (Segment.mk p.id time (time + p.burst)).start = p.burst := by
          show time + p.burst - time = p.burst
          omega
        rw [hdur]
        exact (ih _ pid hpid).cons p.burst
      · rw [List.filter_cons_of_neg (by simpa using hpp),
          List.filter_cons_of_neg (by simpa using hpp)]
        exact ih _ pid hpid

theorem readyRun_filter_perm (le : Process → Process → Bool)
    (pending ready : List Process) (time : Nat) :
    ∀ pid, pid ≠ "IDLE" →
    (((readyRun le pending ready time).filter (fun s => s.pid = pid)).map
        (fun s => s.stop - s.start)).Perm
      (((pending ++ ready).filter (fun p => p.id = pid)).map (fun p => p.burst)) := by
  induction pending, ready, time using readyRun.induct le with
  | case1 pending ready time moved pending' hs hp =>
    intro pid hpid
    rw [readyRun_eq_nil hs hp]
    have hrm := sortBy_eq_nil hs
    obtain ⟨hr, hm⟩ := List.append_eq_nil.mp hrm
    have hpend : pending = [] := by
      have hc := List.takeWhile_append_dropWhile
        (p := fun p : Process => decide (p.arrival ≤ time)) (l := pending)
      have hp' : List.dropWhile (fun p => decide (p.arrival ≤ time)) pending = [] := hp
      have hm' : List.takeWhile (fun p => decide (p.arrival ≤ time)) pending = [] := hm
      rw [hm', hp'] at hc
      simpa using hc.symm
    rw [hpend, hr]
    simp
  | case2 pending ready time moved pending' hs p rest hp ih =>
    intro pid hpid
    rw [readyRun_eq_idle hs hp]
    have hrm := sortBy_eq_nil hs
    obtain ⟨hr, hm⟩ := List.append_eq_nil.mp hrm
    have hpend : pending = p :: rest := by
      have hc := List.takeWhile_append_dropWhile
        (p := fun x : Process => decide (x.arrival ≤ time)) (l := pending)
      have hp' : List.dropWhile (fun x => decide (x.arrival ≤ time)) pending = p :: rest := hp
      have hm' : List.takeWhile (fun x => decide (x.arrival ≤ time)) pending = [] := hm
      rw [hm', hp'] at hc
      simpa using hc.symm
    rw [List.filter_cons_of_neg (by simpa using Ne.symm hpid)]
    rw [hpend, hr]
    simpa using ih pid hpid
  | case3 pending ready time moved pending' picked rs hs ih =>
    intro pid hpid
    rw [readyRun_eq_pick hs]
    have hperm : (pending ++ ready).Perm (picked :: (pending' ++ rs)) := by
      have h0 : (pending ++ ready).Perm (ready ++ pending) := List.perm_append_comm
      have h1 : ready ++ pending = (ready ++ moved) ++ pending' := by
        conv_lhs => rw [← List.takeWhile_append_dropWhile
          (p := fun x : Process => decide (x.arrival ≤ time)) (l := pending)]
        rw [List.append_assoc]
      have h2 : (ready ++ moved).Perm (picked :: rs) := by
        have := sortBy_perm le (ready ++ moved)
        rw [hs] at this
        exact this.symm
      have h3 : ((ready ++ moved) ++ pending').Perm ((picked :: rs) ++ pending') :=
        h2.append_right pending'
      have h4 : ((picked :: rs) ++ pending').Perm (picked :: (pending' ++ rs)) := by
        rw [List.cons_append]
        exact (List.perm_append_comm).cons picked
      exact h0.trans (h1 ▸ h3.trans h4)
    have hfilter : ((pending ++ ready).filter (fun p => p.id = pid)).Perm
        (((picked :: (pending' ++ rs))).filter (fun p => p.id = pid)) :=
      hperm.filter _
    by_cases hpp : picked.id = pid
    · rw [List.filter_cons_of_pos (by simpa using hpp)]
      simp only [List.map_cons]
      have hdur : (Segment.mk picked.id time (time + picked.burst)).stop
          - (Segment.mk picked.id time (time + picked.burst)).start = picked.burst := by
        show time + picked.burst - time = picked.burst
        omega
      rw [hdur]
      refine List.Perm.trans ((ih pid hpid).cons picked.burst) ?_
      refine List.Perm.trans ?_ ((hfilter.map (fun p => p.burst)).symm)
      rw [List.filter_cons_of_pos (by simpa using hpp)]
      simp
    · rw [List.filter_cons_of_neg (by simpa using hpp)]
      refine List.Perm.trans (ih pid hpid) ?_
      refine List.Perm.trans ?_ ((hfilter.map (fun p => p.burst)).symm)
      rw [List.filter_cons_of_neg (by simpa using hpp)]

theorem sumDur_cons (pid : String) (s : Segment) (segs : List Segment) :
    sumDur pid (s :: segs)
      = (if s.pid = pid then s.stop - s.start else 0) + sumDur pid segs := by
  simp only [sumDur, List.filter_cons]
  by_cases h : s.pid = pid
  · rw [if_pos (by simpa using h), if_pos h]
    simp
  · rw [if_neg (by simpa using h), if_neg h]
    simp

theorem rrLoop_sumDur (q : Nat) (hq : 1 ≤ q)
    (queue pending : List Process) (m : BurstMap) (time : Nat) :
    ((queue ++ pending).map (fun p => p.id)).Nodup →
    (∀ p ∈ pending, mapGet m p.id = some p.burst) →
    ∀ pid, pid ≠ "IDLE" →
    sumDur pid (rrLoop q hq queue pending m time)
      = if pid ∈ (queue ++ pending).map (fun p => p.id)
        then (mapGet m pid).getD 0 else 0 := by
  induction queue, pending, m, time using rrLoop.induct q hq with
  | case1 m time =>
    intro _ _ pid _
    rw [rrLoop_eq_nil]
    simp [sumDur]
  | case2 p rest m time nextArrival moved pending' ht ih =>
    intro hN hP pid hpid
    rw [rrLoop_eq_idle hq ht, sumDur_cons]
    rw [if_neg (by simpa using Ne.symm hpid), Nat.zero_add]
    have hsp : (p :: rest).takeWhile (fun x => x.arrival ≤ p.arrival)
        ++ (p :: rest).dropWhile (fun x => x.arrival ≤ p.arrival) = p :: rest :=
      List.takeWhile_append_dropWhile
        (p := fun x : Process => decide (x.arrival ≤ p.arrival)) (l := p :: rest)
    have hN' : ((((p :: rest).takeWhile (fun x => x.arrival ≤ p.arrival))
        ++ ((p :: rest).dropWhile (fun x => x.arrival ≤ p.arrival))).map
          (fun p => p.id)).Nodup := by
      rw [hsp]
      simpa using hN
    have hP' : ∀ x ∈ (p :: rest).dropWhile (fun x => x.arrival ≤ p.arrival),
        mapGet m x.id = some x.burst :=
      fun x hx => hP x (mem_of_mem_dropWhile hx)
    rw [ih hN' hP' pid hpid, hsp]
    simp
  | case3 p rest m time nextArrival moved pending' ht ih =>
    intro hN hP pid hpid
    rw [rrLoop_eq_jump hq ht]
    have hsp : (p :: rest).takeWhile (fun x => x.arrival ≤ p.arrival)
        ++ (p :: rest).dropWhile (fun x => x.arrival ≤ p.arrival) = p :: rest :=
      List.takeWhile_append_dropWhile
        (p := fun x : Process => decide (x.arrival ≤ p.arrival)) (l := p :: rest)
    have hN' : ((((p :: rest).takeWhile (fun x => x.arrival ≤ p.arrival))
        ++ ((p :: rest).dropWhile (fun x => x.arrival ≤ p.arrival))).map
          (fun p => p.id)).Nodup := by
      rw [hsp]
      simpa using hN
    have hP' : ∀ x ∈ (p :: rest).dropWhile (fun x => x.arrival ≤ p.arrival),
        mapGet m x.id = some x.burst :=
      fun x hx => hP x (mem_of_mem_dropWhile hx)
    rw [ih hN' hP' pid hpid, hsp]
    simp
  | case4 current rest pending m time rem slice time' moved pending' hrun ih =>
    intro hN hP pid hpid
    rw [rrLoop_eq_requeue hq hrun, sumDur_cons]
    have hNtail : current.id ∉ (rest ++ pending).map (fun p => p.id) ∧
        ((rest ++ pending).map (fun p => p.id)).Nodup := by
      rw [List.cons_append, List.map_cons, List.nodup_cons] at hN
      exact hN
    have hne : ∀ x ∈ rest ++ pending, x.id ≠ current.id := by
      intro x hx heq
      exact hNtail.1 (List.mem_map.mpr ⟨x, hx, heq⟩)
    have hsp : pending.takeWhile (fun x => x.arrival ≤ time + min q ((mapGet m current.id).getD 0))
        ++ pending.dropWhile (fun x => x.arrival ≤ time + min q ((mapGet m current.id).getD 0))
        = pending :=
      List.takeWhile_append_dropWhile
        (p := fun x : Process => decide (x.arrival ≤ time + min q ((mapGet m current.id).getD 0)))
        (l := pending)
    have hperm : (((rest ++ pending.takeWhile
          (fun x => x.arrival ≤ time + min q ((mapGet m current.id).getD 0)) ++ [current]))
        ++ pending.dropWhile
          (fun x => x.arrival ≤ time + min q ((mapGet m current.id).getD 0))).Perm
        (current :: (rest ++ pending)) := by
      have h1 : ((rest ++ pending.takeWhile
            (fun x => x.arrival ≤ time + min q ((mapGet m current.id).getD 0)) ++ [current]))
          ++ pending.dropWhile
            (fun x => x.arrival ≤ time + min q ((mapGet m current.id).getD 0))
          = rest ++ (pending.takeWhile
              (fun x => x.arrival ≤ time + min q ((mapGet m current.id).getD 0))
            ++ (current :: pending.dropWhile
              (fun x => x.arrival ≤ time + min q ((mapGet m current.id).getD 0)))) := by
        simp [List.append_assoc]
      rw [h1]
      have hp1 : (rest ++ (pending.takeWhile
            (fun x => x.arrival ≤ time + min q ((mapGet m current.id).getD 0))
          ++ (current :: pending.dropWhile
            (fun x => x.arrival ≤ time + min q ((mapGet m current.id).getD 0))))).Perm
          (rest ++ (current :: (pending.takeWhile
            (fun x => x.arrival ≤ time + min q ((mapGet m current.id).getD 0))
          ++ pending.dropWhile
            (fun x => x.arrival ≤ time + min q ((mapGet m current.id).getD 0))))) :=
        List.Perm.append_left rest List.perm_middle
      rw [hsp] at hp1
      exact hp1.trans List.perm_middle
    have hN' := ((hperm.map (fun p => p.id)).nodup_iff).mpr (by simpa using hN)
    have hP' : ∀ x ∈ pending.dropWhile
        (fun x => x.arrival ≤ time + min q ((mapGet m current.id).getD 0)),
        mapGet (mapSet m current.id
          ((mapGet m current.id).getD 0 - min q ((mapGet m current.id).getD 0))) x.id
          = some x.burst := by
      intro x hx
      have hxp : x ∈ pending := mem_of_mem_dropWhile hx
      rw [mapGet_mapSet_ne m _ (hne x (List.mem_append.mpr (Or.inr hxp)))]
      exact hP x hxp
    have hrec := ih hN' hP' pid hpid
    rw [hrec]
    by_cases hpp : current.id = pid
    · subst hpp
      rw [if_pos rfl]
      rw [if_pos (((hperm.map (fun p => p.id)).mem_iff).mpr (by simp))]
      rw [if_pos (by simp)]
      rw [mapGet_mapSet_self]
      show time + min q ((mapGet m current.id).getD 0) - time
          + ((mapGet m current.id).getD 0 - min q ((mapGet m current.id).getD 0))
          = (mapGet m current.id).getD 0
      omega
    · rw [if_neg hpp, Nat.zero_add]
      rw [mapGet_mapSet_ne m _ (fun h => hpp h.symm)]
      have hmem_iff : pid ∈ (((rest ++ pending.takeWhile
            (fun x => x.arrival ≤ time + min q ((mapGet m current.id).getD 0)) ++ [current]))
          ++ pending.dropWhile
            (fun x => x.arrival ≤ time + min q ((mapGet m current.id).getD 0))).map
              (fun p => p.id)
          ↔ pid ∈ ((current :: rest ++ pending).map (fun p => p.id)) := by
        rw [((hperm.map (fun p => p.id)).mem_iff)]
        simp
      by_cases hmem : pid ∈ ((current :: rest ++ pending).map (fun p => p.id))
      · rw [if_pos (hmem_iff.mpr hmem), if_pos hmem]
      · rw [if_neg (fun h => hmem (hmem_iff.mp h)), if_neg hmem]
  | case5 current rest pending m time rem slice time' moved pending' hdone ih =>
    intro hN hP pid hpid
    rw [rrLoop_eq_finish hq hdone, sumDur_cons]
    have hNtail : current.id ∉ (rest ++ pending).map (fun p => p.id) ∧
        ((rest ++ pending).map (fun p => p.id)).Nodup := by
      rw [List.cons_append, List.map_cons, List.nodup_cons] at hN
      exact hN
    have hne : ∀ x ∈ rest ++ pending, x.id ≠ current.id := by
      intro x hx heq
      exact hNtail.1 (List.mem_map.mpr ⟨x, hx, heq⟩)
    have hsp : pending.takeWhile (fun x => x.arrival ≤ time + min q ((mapGet m current.id).getD 0))
        ++ pending.dropWhile (fun x => x.arrival ≤ time + min q ((mapGet m current.id).getD 0))
        = pending :=
      List.takeWhile_append_dropWhile
        (p := fun x : Process => decide (x.arrival ≤ time + min q ((mapGet m current.id).getD 0)))
        (l := pending)
    have heq2 : (rest ++ pending.takeWhile
          (fun x => x.arrival ≤ time + min q ((mapGet m current.id).getD 0)))
        ++ pending.dropWhile
          (fun x => x.arrival ≤ time + min q ((mapGet m current.id).getD 0))
        = rest ++ pending := by
      rw [List.append_assoc, hsp]
    have hN' : (((rest ++ pending.takeWhile
          (fun x => x.arrival ≤ time + min q ((mapGet m current.id).getD 0)))
        ++ pending.dropWhile
          (fun x => x.arrival ≤ time + min q ((mapGet m current.id).getD 0))).map
            (fun p => p.id)).Nodup := by
      rw [heq2]
      exact hNtail.2
    have hP' : ∀ x ∈ pending.dropWhile
        (fun x => x.arrival ≤ time + min q ((mapGet m current.id).getD 0)),
        mapGet (mapErase m current.id) x.id = some x.burst := by
      intro x hx
      have hxp : x ∈ pending := mem_of_mem_dropWhile hx
      rw [mapGet_mapErase_ne m (hne x (List.mem_append.mpr (Or.inr hxp)))]
      exact hP x hxp
    have hrec := ih hN' hP' pid hpid
    rw [hrec]
    by_cases hpp : current.id = pid
    · subst hpp
      rw [if_pos rfl]
      rw [if_neg (by rw [heq2]; exact hNtail.1)]
      rw [if_pos (by simp)]
      show time + min q ((mapGet m current.id).getD 0) - time + 0
          = (mapGet m current.id).getD 0
      omega
    · rw [if_neg hpp, Nat.zero_add]
      rw [mapGet_mapErase_ne m (fun h => hpp h.symm)]
      have hmem_iff : pid ∈ (((rest ++ pending.takeWhile
            (fun x => x.arrival ≤ time + min q ((mapGet m current.id).getD 0)))
          ++ pending.dropWhile
            (fun x => x.arrival ≤ time + min q ((mapGet m current.id).getD 0))).map
              (fun p => p.id))
          ↔ pid ∈ ((rest ++ pending).map (fun p => p.id)) := by
        rw [heq2]
      by_cases hmem : pid ∈ ((rest ++ pending).map (fun p => p.id))
      · have hm2 : pid ∈ ((current :: rest ++ pending).map (fun p => p.id)) := by
          rw [List.cons_append, List.map_cons]
          exact List.mem_cons_of_mem _ hmem
        rw [if_pos (hmem_iff.mpr hmem), if_pos hm2]
      · have hnm : pid ∉ ((current :: rest ++ pending).map (fun p => p.id)) := by
          intro hcon
          rw [List.cons_append, List.map_cons, List.mem_cons] at hcon
          rcases hcon with h | h
          · exact hpp h.symm
          · exact hmem h
        rw [if_neg (fun h => hmem (hmem_iff.mp h)), if_neg hnm]

/-- C3: conservation — for every process set with unique ids (and, per
the spec's interface contract, no id colliding with the reserved idle
sentinel) and every policy (FCFS, SJF, Priority, Round Robin with
`q ≥ 1`), the total duration of the output segments bearing a process's
id is exactly that process's burst. -/
theorem claim_C3 (ps : List Process) (q : Nat) (hq : 1 ≤ q)
    (hids : (ps.map (fun p => p.id)).Nodup)
    (hnoidle : ∀ p ∈ ps, p.id ≠ "IDLE") :
    ∀ p ∈ ps,
      sumDur p.id (scheduleFCFS ps) = p.burst ∧
      sumDur p.id (scheduleSJF ps) = p.burst ∧
      sumDur p.id (schedulePriority ps) = p.burst ∧
      sumDur p.id (scheduleRoundRobin ps q hq) = p.burst := by
  intro p hp
  have hmem : p ∈ sortBy byArrival ps := (mem_sortBy byArrival).mpr hp
  have hids' : ((sortBy byArrival ps).map (fun x => x.id)).Nodup :=
    (((sortBy_perm byArrival ps).map (fun x => x.id)).nodup_iff).mpr hids
  have hsingle : (sortBy byArrival ps).filter (fun x => x.id = p.id) = [p] :=
    filter_id_eq_singleton hmem hids'
  have hpid : p.id ≠ "IDLE" := hnoidle p hp
  refine ⟨?_, ?_, ?_, ?_⟩
  · have hperm := fcfsGo_filter_perm 0 (sortBy byArrival ps) p.id hpid
    show ((((fcfsGo 0 (sortBy byArrival ps)).filter (fun s => s.pid = p.id)).map
      (fun s => s.stop - s.start)).sum) = p.burst
    rw [hperm.sum_eq, hsingle]
    simp
  · have hperm := readyRun_filter_perm byBurst (sortBy byArrival ps) [] 0 p.id hpid
    show ((((readyRun byBurst (sortBy byArrival ps) [] 0).filter
      (fun s => s.pid = p.id)).map (fun s => s.stop - s.start)).sum) = p.burst
    rw [hperm.sum_eq, List.append_nil, hsingle]
    simp
  · have hperm := readyRun_filter_perm prioLe (sortBy byArrival ps) [] 0 p.id hpid
    show ((((readyRun prioLe (sortBy byArrival ps) [] 0).filter
      (fun s => s.pid = p.id)).map (fun s => s.stop - s.start)).sum) = p.burst
    rw [hperm.sum_eq, List.append_nil, hsingle]
    simp
  · have hN : ((((sortBy byArrival ps).takeWhile (fun x => x.arrival ≤ 0))
        ++ ((sortBy byArrival ps).dropWhile (fun x => x.arrival ≤ 0))).map
          (fun x => x.id)).Nodup := by
      rw [List.takeWhile_append_dropWhile]
      exact hids'
    have hP : ∀ x ∈ (sortBy byArrival ps).dropWhile (fun x => x.arrival ≤ 0),
        mapGet (buildMap (sortBy byArrival ps)) x.id = some x.burst :=
      fun x hx => buildMap_get (mem_of_mem_dropWhile hx) hids'
    have hsum := rrLoop_sumDur q hq
      ((sortBy byArrival ps).takeWhile (fun x => x.arrival ≤ 0))
      ((sortBy byArrival ps).dropWhile (fun x => x.arrival ≤ 0))
      (buildMap (sortBy byArrival ps)) 0 hN hP p.id hpid
    have hmem2 : p.id ∈ ((((sortBy byArrival ps).takeWhile (fun x => x.arrival ≤ 0))
        ++ ((sortBy byArrival ps).dropWhile (fun x => x.arrival ≤ 0))).map
          (fun x => x.id)) := by
      rw [List.takeWhile_append_dropWhile]
      exact List.mem_map.mpr ⟨p, hmem, rfl⟩
    rw [if_pos hmem2, buildMap_get hmem hids'] at hsum
    exact hsum

/-- Witness for C3 at the demo set, quantum 2, process `P2(1,3)`. -/
theorem claim_C3_witness :
    ((demoProcs.map (fun p => p.id)).Nodup ∧ (∀ p ∈ demoProcs, p.id ≠ "IDLE")
      ∧ (⟨"P2", 1, 3, 1⟩ : Process) ∈ demoProcs) ∧
    (sumDur "P2" (scheduleFCFS demoProcs) = 3 ∧
      sumDur "P2" (scheduleSJF demoProcs) = 3 ∧
      sumDur "P2" (schedulePriority demoProcs) = 3 ∧
      sumDur "P2" (scheduleRoundRobin demoProcs 2 (by omega)) = 3) := by
  have h := claim_C3 demoProcs 2 (by omega) (by decide) (by decide)
    ⟨"P2", 1, 3, 1⟩ (by decide)
  exact ⟨⟨by decide, by decide, by decide⟩, h.1, h.2.1, h.2.2.1, h.2.2.2⟩

/-- C4: non-preemption — under FCFS, SJF and Priority (with unique ids,
none equal to the idle sentinel), each process id appears in at most one
segment of the output. -/
theorem claim_C4 (ps : List Process)
    (hids : (ps.map (fun p => p.id)).Nodup)
    (hnoidle : ∀ p ∈ ps, p.id ≠ "IDLE") :
    ∀ p ∈ ps,
      countPid p.id (scheduleFCFS ps) ≤ 1 ∧
      countPid p.id (scheduleSJF ps) ≤ 1 ∧
      countPid p.id (schedulePriority ps) ≤ 1 := by
  intro p hp
  have hmem : p ∈ sortBy byArrival ps := (mem_sortBy byArrival).mpr hp
  have hids' : ((sortBy byArrival ps).map (fun x => x.id)).Nodup :=
    (((sortBy_perm byArrival ps).map (fun x => x.id)).nodup_iff).mpr hids
  have hsingle : (sortBy byArrival ps).filter (fun x => x.id = p.id) = [p] :=
    filter_id_eq_singleton hmem hids'
  have hpid : p.id ≠ "IDLE" := hnoidle p hp
  refine ⟨?_, ?_, ?_⟩
  · have hlen := (fcfsGo_filter_perm 0 (sortBy byArrival ps) p.id hpid).length_eq
    show ((fcfsGo 0 (sortBy byArrival ps)).filter (fun s => s.pid = p.id)).length ≤ 1
    rw [List.length_map, List.length_map] at hlen
    rw [hlen, hsingle]
    simp
  · have hlen := (readyRun_filter_perm byBurst (sortBy byArrival ps) [] 0 p.id hpid).length_eq
    show ((readyRun byBurst (sortBy byArrival ps) [] 0).filter
      (fun s => s.pid = p.id)).length ≤ 1
    rw [List.length_map, List.length_map] at hlen
    rw [hlen, List.append_nil, hsingle]
    simp
  · have hlen := (readyRun_filter_perm prioLe (sortBy byArrival ps) [] 0 p.id hpid).length_eq
    show ((readyRun prioLe (sortBy byArrival ps) [] 0).filter
      (fun s => s.pid = p.id)).length ≤ 1
    rw [List.length_map, List.length_map] at hlen
    rw [hlen, List.append_nil, hsingle]
    simp

/-- Witness for C4 at the demo set, process `P3(2,6)`. -/
theorem claim_C4_witness :
    ((demoProcs.map (fun p => p.id)).Nodup ∧ (∀ p ∈ demoProcs, p.id ≠ "IDLE")
      ∧ (⟨"P3", 2, 6, 3⟩ : Process) ∈ demoProcs) ∧
    (countPid "P3" (scheduleFCFS demoProcs) ≤ 1 ∧
      countPid "P3" (scheduleSJF demoProcs) ≤ 1 ∧
      countPid "P3" (schedulePriority demoProcs) ≤ 1) := by
  have h := claim_C4 demoProcs (by decide) (by decide) ⟨"P3", 2, 6, 3⟩ (by decide)
  exact ⟨⟨by decide, by decide, by decide⟩, h.1, h.2.1, h.2.2⟩

/-- C6: on an empty process set every policy returns the empty segment
list without error, and `computeMetrics` on an empty process set (for
any segment list) returns zero averages — the divisor is `max 0 1 = 1`
(the source's `processes.length || 1`), so no division by zero. -/
theorem claim_C6 :
    scheduleFCFS [] = [] ∧ scheduleSJF [] = [] ∧ schedulePriority [] = [] ∧
    (∀ (q : Nat) (hq : 1 ≤ q), scheduleRoundRobin [] q hq = []) ∧
    (∀ segs : List Segment, computeMetrics [] segs = ⟨0, 0⟩) := by
  refine ⟨rfl, ?_, ?_, ?_, ?_⟩
  · show readyRun byBurst [] [] 0 = []
    exact readyRun_eq_nil rfl rfl
  · show readyRun prioLe [] [] 0 = []
    exact readyRun_eq_nil rfl rfl
  · intro q hq
    show rrLoop q hq [] [] (buildMap []) 0 = []
    exact rrLoop_eq_nil q hq _ 0
  · intro segs
    simp [computeMetrics]

/-- Witness for C6's quantified parts: quantum 1 and a non-empty segment
list. -/
theorem claim_C6_witness :
    (1 : Nat) ≤ 1 ∧ scheduleRoundRobin [] 1 (by omega) = [] ∧
    computeMetrics [] [Segment.mk "P1" 0 4] = ⟨0, 0⟩ := by
  have h := claim_C6
  exact ⟨by omega, h.2.2.2.1 1 (by omega), h.2.2.2.2 [Segment.mk "P1" 0 4]⟩

/-- C10: `segmentsToTicks` is total over arbitrary segment lists: its
output length is the last segment's `end` (0 for an empty list), and any
tick index covered by no segment is filled with the sentinel `"IDLE"`
rather than causing an error or a hole. -/
theorem claim_C10 (segs : List Segment) :
    (segmentsToTicks segs).length
      = (match segs.getLast? with | some s => s.stop | none => 0) ∧
    (∀ t (ht : t < (segmentsToTicks segs).length),
      (∀ s ∈ segs, ¬ (s.start ≤ t ∧ t < s.stop)) →
      (segmentsToTicks segs).get ⟨t, ht⟩ = "IDLE") := by
  constructor
  · simp [segmentsToTicks]
  · intro t ht hno
    have hfind : segs.find? (fun s => s.start ≤ t ∧ t < s.stop) = none := by
      rw [List.find?_eq_none]
      intro s hs
      simpa using hno s hs
    simp only [segmentsToTicks, List.get_eq_getElem, List.getElem_map, List.getElem_range]
    rw [hfind]

/-- Witness for C10: the gapped list `[P1: 2..3]` yields three ticks and
tick 0, covered by no segment, is `"IDLE"`. -/
theorem claim_C10_witness :
    (segmentsToTicks [Segment.mk "P1" 2 3]).length = 3 ∧
    ∀ ht : 0 < (segmentsToTicks [Segment.mk "P1" 2 3]).length,
      (segmentsToTicks [Segment.mk "P1" 2 3]).get ⟨0, ht⟩ = "IDLE" := by
  have h := claim_C10 [Segment.mk "P1" 2 3]
  exact ⟨h.1, fun ht => h.2 0 ht (by decide)⟩

theorem find?_append_of_some {p : α → Bool} {l₁ : List α} {x : α} (l₂ : List α)
    (h : l₁.find? p = some x) : (l₁ ++ l₂).find? p = some x := by
  induction l₁ with
  | nil => simp [List.find?] at h
  | cons a as ih =>
    by_cases hpa : p a = true
    · rw [List.find?_cons_of_pos _ hpa] at h
      rw [List.cons_append, List.find?_cons_of_pos _ hpa]
      exact h
    · rw [List.find?_cons_of_neg _ (by simpa using hpa)] at h
      rw [List.cons_append, List.find?_cons_of_neg _ (by simpa using hpa)]
      exact ih h

theorem find?_append_of_none {p : α → Bool} {l₁ : List α} (l₂ : List α)
    (h : l₁.find? p = none) : (l₁ ++ l₂).find? p = l₂.find? p := by
  induction l₁ with
  | nil => rfl
  | cons a as ih =>
    by_cases hpa : p a = true
    · rw [List.find?_cons_of_pos _ hpa] at h
      simp at h
    · rw [List.find?_cons_of_neg _ (by simpa using hpa)] at h
      rw [List.cons_append, List.find?_cons_of_neg _ (by simpa using hpa)]
      exact ih h

/-- Spec-side definition, following the claim's words: a process's
finish time as "the `end` of the last (highest-`end`) non-idle segment
bearing its id" read as the HIGHEST-`end` such segment (0 if none). -/
def specFinishHighestEnd (segments : List Segment) (pid : String) : Nat :=
  ((segments.filter (fun s => s.pid = pid ∧ s.pid ≠ "IDLE")).map
    (fun s => s.stop)).foldr max 0

/-- Spec-side definition of what the code actually computes: the `end`
of the LAST non-idle segment in list order bearing the id (0 if none) —
equivalently the first match from the right. -/
def specFinishLast (segments : List Segment) (pid : String) : Nat :=
  match segments.reverse.find? (fun s => s.pid = pid ∧ s.pid ≠ "IDLE") with
  | some s => s.stop
  | none => 0

/-- The claim's metrics formulas, parameterized by the finish rule:
turnaround = finish − arrival, waiting = turnaround − burst, and the
averages over all processes (empty set divided by 1). -/
def specMetrics (finish : List Segment → String → Nat)
    (ps : List Process) (segs : List Segment) : Metrics :=
  let tat : Process → Int := fun p => (finish segs p.id : Int) - (p.arrival : Int)
  let wt : Process → Int := fun p => tat p - (p.burst : Int)
  let n : Nat := max ps.length 1
  { avgWaiting := ((ps.map wt).sum : ℚ) / (n : ℚ),
    avgTurnaround := ((ps.map tat).sum : ℚ) / (n : ℚ) }

theorem finishMap_get_eq (segs : List Segment) (pid : String) :
    ∀ m : BurstMap,
    mapGet (segs.foldl (fun m s => if s.pid = "IDLE" then m else mapSet m s.pid s.stop) m) pid
      = match segs.reverse.find? (fun s => s.pid = pid ∧ s.pid ≠ "IDLE") with
        | some s => some s.stop
        | none => mapGet m pid := by
  induction segs with
  | nil => intro m; rfl
  | cons s rest ih =>
    intro m
    simp only [List.foldl_cons, List.reverse_cons]
    rw [ih]
    cases hr : rest.reverse.find? (fun s => s.pid = pid ∧ s.pid ≠ "IDLE") with
    | some x =>
      rw [find?_append_of_some [s] hr]
    | none =>
      rw [find?_append_of_none [s] hr]
      by_cases hs1 : s.pid = "IDLE"
      · rw [if_pos hs1]
        rw [List.find?_cons_of_neg _ (by simp [hs1])]
        rfl
      · rw [if_neg hs1]
        by_cases hs2 : s.pid = pid
        · rw [List.find?_cons_of_pos _ (by simp [hs2]; exact fun h => hs1 (hs2.trans h))]
          subst hs2
          rw [mapGet_mapSet_self]
        · rw [List.find?_cons_of_neg _ (by simp [hs2])]
          rw [mapGet_mapSet_ne m _ (fun h => hs2 h.symm)]
          rfl

theorem finishMap_get (segs : List Segment) (pid : String) :
    (mapGet (finishMap segs) pid).getD 0 = specFinishLast segs pid := by
  have h := finishMap_get_eq segs pid []
  show (mapGet (segs.foldl
    (fun m s => if s.pid = "IDLE" then m else mapSet m s.pid s.stop) []) pid).getD 0
    = specFinishLast segs pid
  rw [h, specFinishLast]
  cases segs.reverse.find? (fun s => s.pid = pid ∧ s.pid ≠ "IDLE") with
  | some s => rfl
  | none => rfl

theorem foldl_pair_sum (f g : Process → Int) :
    ∀ (ps : List Process) (a b : Int),
    ps.foldl (fun acc p => (acc.1 + f p, acc.2 + g p)) (a, b)
      = (a + (ps.map f).sum, b + (ps.map g).sum) := by
  intro ps
  induction ps with
  | nil => intro a b; simp
  | cons p rest ih =>
    intro a b
    simp only [List.foldl_cons, List.map_cons, List.sum_cons]
    rw [ih]
    simp [add_assoc]

theorem computeMetrics_eq_spec (ps : List Process) (segs : List Segment) :
    computeMetrics ps segs = specMetrics specFinishLast ps segs := by
  have hfold := foldl_pair_sum
    (fun p : Process =>
      ((mapGet (finishMap segs) p.id).getD 0 : Int) - (p.arrival : Int) - (p.burst : Int))
    (fun p : Process =>
      ((mapGet (finishMap segs) p.id).getD 0 : Int) - (p.arrival : Int))
    ps 0 0
  have hwt : (fun p : Process =>
      ((mapGet (finishMap segs) p.id).getD 0 : Int) - (p.arrival : Int) - (p.burst : Int))
      = (fun p : Process =>
        (specFinishLast segs p.id : Int) - (p.arrival : Int) - (p.burst : Int)) := by
    funext p
    rw [finishMap_get]
  have htat : (fun p : Process =>
      ((mapGet (finishMap segs) p.id).getD 0 : Int) - (p.arrival : Int))
      = (fun p : Process => (specFinishLast segs p.id : Int) - (p.arrival : Int)) := by
    funext p
    rw [finishMap_get]
  show Metrics.mk
      (((ps.foldl (fun acc p =>
          (acc.1 + (((mapGet (finishMap segs) p.id).getD 0 : Int)
              - (p.arrival : Int) - (p.burst : Int)),
            acc.2 + (((mapGet (finishMap segs) p.id).getD 0 : Int) - (p.arrival : Int))))
        ((0 : Int), (0 : Int))).1 : ℚ) / ((max ps.length 1 : Nat) : ℚ))
      (((ps.foldl (fun acc p =>
          (acc.1 + (((mapGet (finishMap segs) p.id).getD 0 : Int)
              - (p.arrival : Int) - (p.burst : Int)),
            acc.2 + (((mapGet (finishMap segs) p.id).getD 0 : Int) - (p.arrival : Int))))
        ((0 : Int), (0 : Int))).2 : ℚ) / ((max ps.length 1 : Nat) : ℚ))
    = specMetrics specFinishLast ps segs
  rw [hfold, hwt, htat]
  simp [specMetrics]

/-- Counterexample to C5 as stated: for the segment list
`[P1: 0..5, P1: 1..2]`, which is in non-decreasing `start` order, the
code's finish time for `P1` is the `end` of the LAST segment in list
order (2), not of the highest-`end` segment (5), so `computeMetrics`
differs from the claim's highest-`end` rule. -/
theorem claim_C5_counterexample :
    List.Pairwise (fun a b : Segment => a.start ≤ b.start)
      [Segment.mk "P1" 0 5, Segment.mk "P1" 1 2] ∧
    computeMetrics [⟨"P1", 0, 1, 1⟩] [Segment.mk "P1" 0 5, Segment.mk "P1" 1 2]
      ≠ specMetrics specFinishHighestEnd [⟨"P1", 0, 1, 1⟩]
        [Segment.mk "P1" 0 5, Segment.mk "P1" 1 2] := by
  constructor
  · decide
  · simp [computeMetrics, finishMap, mapGet, mapSet, List.find?,
      specMetrics, specFinishHighestEnd, Metrics.mk.injEq]

/-- C5 (amended): `computeMetrics` computes each process's finish time
as the `end` of the last non-idle segment IN LIST ORDER bearing its id
(0 if the process has no segment; for contiguous runs, whose ends are
non-decreasing, this is also the highest-`end` one), turnaround =
finish − arrival, waiting = turnaround − burst, and returns the
averages over all processes; in particular for `P1(0,4)`, `P2(1,3)` and
segments `[P1: 0..4, P2: 4..7]` it returns average waiting 3/2 and
average turnaround 5. -/
theorem claim_C5 :
    (∀ (ps : List Process) (segs : List Segment),
      computeMetrics ps segs = specMetrics specFinishLast ps segs) ∧
    computeMetrics [⟨"P1", 0, 4, 1⟩, ⟨"P2", 1, 3, 1⟩]
      [Segment.mk "P1" 0 4, Segment.mk "P2" 4 7] = ⟨3/2, 5⟩ := by
  refine ⟨computeMetrics_eq_spec, ?_⟩
  simp [computeMetrics, finishMap, mapGet, mapSet, List.find?]
  norm_num

theorem find?_congr {p q : α → Bool} : ∀ {l : List α},
    (∀ x ∈ l, p x = q x) → l.find? p = l.find? q := by
  intro l
  induction l with
  | nil => intro _; rfl
  | cons a as ih =>
    intro h
    have ha := h a (List.mem_cons_self a as)
    by_cases hpa : p a = true
    · rw [List.find?_cons_of_pos _ hpa, List.find?_cons_of_pos _ (ha ▸ hpa)]
    · rw [List.find?_cons_of_neg _ hpa, List.find?_cons_of_neg _ (ha ▸ hpa)]
      exact ih (fun x hx => h x (List.mem_cons_of_mem a hx))

theorem sortBy_byBurst_head (l : List Process) :
    (sortBy byBurst l).head? = l.find? (fun p => l.all (fun q => p.burst ≤ q.burst)) := by
  induction l with
  | nil => rfl
  | cons a t ih =>
    show (insertBy byBurst a (sortBy byBurst t)).head? = _
    cases hst : sortBy byBurst t with
    | nil =>
      have ht : t = [] := sortBy_eq_nil hst
      subst ht
      simp [insertBy, List.find?]
    | cons m rest' =>
      have hmfind : t.find? (fun p => t.all (fun q => p.burst ≤ q.burst)) = some m := by
        rw [← ih, hst]
        rfl
      have hm_mem : m ∈ t := List.mem_of_find?_eq_some hmfind
      have hm_all := List.find?_some hmfind
      have hm_min : ∀ x ∈ t, m.burst ≤ x.burst := by
        intro x hx
        simpa using List.all_eq_true.mp hm_all x hx
      by_cases hab : a.burst ≤ m.burst
      · have hhead : (insertBy byBurst a (m :: rest')).head? = some a := by
          simp [insertBy, byBurst, hab]
        rw [hhead]
        have hpa : ((a :: t).all (fun q => a.burst ≤ q.burst)) = true := by
          rw [List.all_eq_true]
          intro x hx
          rcases List.mem_cons.mp hx with rfl | hx'
          · simp
          · simpa using le_trans hab (hm_min x hx')
        rw [List.find?_cons_of_pos
          (p := fun x : Process => (a :: t).all fun q => decide (x.burst ≤ q.burst)) _ hpa]
      · have hhead : (insertBy byBurst a (m :: rest')).head? = some m := by
          simp [insertBy, byBurst, hab]
        rw [hhead]
        have hpa : ¬ (((a :: t).all (fun q => a.burst ≤ q.burst)) = true) := by
          intro hall
          exact hab (by simpa using List.all_eq_true.mp hall m (List.mem_cons_of_mem a hm_mem))
        rw [List.find?_cons_of_neg
          (p := fun x : Process => (a :: t).all fun q => decide (x.burst ≤ q.burst)) _ hpa]
        rw [find?_congr (q := fun p => t.all (fun q => p.burst ≤ q.burst)) ?_, hmfind]
        intro x hx
        show ((a :: t).all (fun q => x.burst ≤ q.burst))
          = (t.all (fun q => x.burst ≤ q.burst))
        by_cases hxt : t.all (fun q => x.burst ≤ q.burst) = true
        · have hxm : x.burst ≤ m.burst := by simpa using List.all_eq_true.mp hxt m hm_mem
          have hxa : x.burst ≤ a.burst := by omega
          rw [List.all_cons, hxt]
          simp [hxa]
        · rw [List.all_cons, Bool.eq_false_iff.mpr hxt]
          simp

/-- C7: the stable sort `scheduleSJF` applies to the ready list selects,
among processes of minimal burst, the one that entered the ready list
earliest: for every ready list `l` the head of `sortBy byBurst l` is the
FIRST element of `l` whose burst is minimal.  Because the ready list is
filled in arrival order (and input order for equal arrivals), ties are
broken by arrival then input order.  The second conjunct anchors this to
the loop: the process `scheduleSJF` actually emits next is exactly that
head of the sorted ready list. -/
theorem claim_C7 (l : List Process) :
    (sortBy byBurst l).head? = l.find? (fun p => l.all (fun q => p.burst ≤ q.burst)) ∧
    (∀ (pending ready : List Process) (time : Nat) (picked : Process) (rs : List Process),
      sortBy byBurst (ready ++ pending.takeWhile (fun x => x.arrival ≤ time))
          = picked :: rs →
      readyRun byBurst pending ready time
        = Segment.mk picked.id time (time + picked.burst) ::
          readyRun byBurst (pending.dropWhile (fun x => x.arrival ≤ time)) rs
            (time + picked.burst)) :=
  ⟨sortBy_byBurst_head l, fun _ _ _ _ _ hs => readyRun_eq_pick hs⟩

/-- Witness for C7: two ready processes `A(0,2)` and `B(0,2)` with equal
burst — the earlier-appended `A` is selected, and `scheduleSJF`'s loop
emits `A` first. -/
theorem claim_C7_witness :
    (sortBy byBurst [⟨"A", 0, 2, 1⟩, ⟨"B", 0, 2, 1⟩]).head?
        = List.find?
          (fun p => ([⟨"A", 0, 2, 1⟩, ⟨"B", 0, 2, 1⟩] : List Process).all
            (fun q => p.burst ≤ q.burst))
          [⟨"A", 0, 2, 1⟩, ⟨"B", 0, 2, 1⟩] ∧
    readyRun byBurst [] [⟨"A", 0, 2, 1⟩, ⟨"B", 0, 2, 1⟩] 0
      = Segment.mk "A" 0 2 ::
        readyRun byBurst (([] : List Process).dropWhile (fun x => x.arrival ≤ 0))
          [⟨"B", 0, 2, 1⟩] 2 := by
  have h := claim_C7 [⟨"A", 0, 2, 1⟩, ⟨"B", 0, 2, 1⟩]
  exact ⟨h.1, h.2 [] [⟨"A", 0, 2, 1⟩, ⟨"B", 0, 2, 1⟩] 0 ⟨"A", 0, 2, 1⟩
    [⟨"B", 0, 2, 1⟩] (by decide)⟩

theorem takeWhile_eq_filter_sorted {l : List Process} {t : Nat}
    (hs : l.Pairwise (fun a b => a.arrival ≤ b.arrival)) :
    l.takeWhile (fun p => p.arrival ≤ t) = l.filter (fun p => p.arrival ≤ t) := by
  induction l with
  | nil => rfl
  | cons a as ih =>
    by_cases ha : a.arrival ≤ t
    · rw [List.takeWhile_cons, if_pos (by simpa using ha),
        List.filter_cons_of_pos (by simpa using ha), ih hs.of_cons]
    · rw [List.takeWhile_cons, if_neg (by simpa using ha),
        List.filter_cons_of_neg (by simpa using ha)]
      have hnil : as.filter (fun p => decide (p.arrival ≤ t)) = [] := by
        rw [List.filter_eq_nil]
        intro x hx
        have := (List.pairwise_cons.mp hs).1 x hx
        simp only [decide_eq_true_eq]
        omega
      rw [hnil]

theorem dropWhile_eq_filter_sorted {l : List Process} {t : Nat}
    (hs : l.Pairwise (fun a b => a.arrival ≤ b.arrival)) :
    l.dropWhile (fun p => p.arrival ≤ t) = l.filter (fun p => t < p.arrival) := by
  induction l with
  | nil => rfl
  | cons a as ih =>
    by_cases ha : a.arrival ≤ t
    · rw [List.dropWhile_cons, if_pos (by simpa using ha),
        List.filter_cons_of_neg (by simp; omega), ih hs.of_cons]
    · rw [List.dropWhile_cons, if_neg (by simpa using ha),
        List.filter_cons_of_pos (by simp; omega)]
      have hself : as.filter (fun p => decide (t < p.arrival)) = as := by
        rw [List.filter_eq_self]
        intro x hx
        have := (List.pairwise_cons.mp hs).1 x hx
        simp only [decide_eq_true_eq]
        omega
      rw [hself]

/-- C2: one step of `scheduleRoundRobin`'s loop with a non-empty queue,
in a reachable state (pending arrival-sorted with arrivals after `time`,
ids unique): the process at the head of the queue runs
`slice = min q remaining` units; then exactly the processes whose
arrival lies in `(time, time + slice]` are enqueued, in arrival order
(they are a filter of the arrival-sorted pending list), BEFORE the
just-run process is re-appended at the tail — and the just-run process
is re-appended only if its remaining burst is still positive.  When its
remaining burst reaches 0 (`remaining ≤ q`), it is erased from the
remaining-burst map and its id is not in the resulting queue, so it is
never enqueued again. -/
theorem claim_C2 (q : Nat) (hq : 1 ≤ q) (current : Process)
    (rest pending : List Process) (m : BurstMap) (time : Nat)
    (hS : pending.Pairwise (fun a b => a.arrival ≤ b.arrival))
    (hT : ∀ p ∈ pending, time < p.arrival)
    (hN : ((current :: rest ++ pending).map (fun p => p.id)).Nodup) :
    rrLoop q hq (current :: rest) pending m time
      = Segment.mk current.id time (time + min q ((mapGet m current.id).getD 0)) ::
        rrLoop q hq
          (rest
            ++ pending.filter (fun p => time < p.arrival
                ∧ p.arrival ≤ time + min q ((mapGet m current.id).getD 0))
            ++ (if 0 < (mapGet m current.id).getD 0 - min q ((mapGet m current.id).getD 0)
                then [current] else []))
          (pending.filter
            (fun p => time + min q ((mapGet m current.id).getD 0) < p.arrival))
          (if 0 < (mapGet m current.id).getD 0 - min q ((mapGet m current.id).getD 0)
            then mapSet m current.id
              ((mapGet m current.id).getD 0 - min q ((mapGet m current.id).getD 0))
            else mapErase m current.id)
          (time + min q ((mapGet m current.id).getD 0)) ∧
      ((mapGet m current.id).getD 0 ≤ q →
        current.id ∉ ((rest ++ pending.filter (fun p => time < p.arrival
            ∧ p.arrival ≤ time + min q ((mapGet m current.id).getD 0))).map
              (fun p => p.id))) := by
  have hfilter1 : pending.takeWhile
        (fun p => p.arrival ≤ time + min q ((mapGet m current.id).getD 0))
      = pending.filter (fun p => time < p.arrival
        ∧ p.arrival ≤ time + min q ((mapGet m current.id).getD 0)) := by
    rw [takeWhile_eq_filter_sorted hS]
    refine List.filter_congr ?_
    intro x hx
    have := hT x hx
    simp only [decide_eq_decide]
    constructor
    · intro h2
      exact ⟨this, h2⟩
    · intro h2
      exact h2.2
  have hfilter2 : pending.dropWhile
        (fun p => p.arrival ≤ time + min q ((mapGet m current.id).getD 0))
      = pending.filter
        (fun p => time + min q ((mapGet m current.id).getD 0) < p.arrival) :=
    dropWhile_eq_filter_sorted hS
  constructor
  · by_cases hreq : 0 < (mapGet m current.id).getD 0
        - min q ((mapGet m current.id).getD 0)
    · rw [if_pos hreq, if_pos hreq, ← hfilter1, ← hfilter2]
      exact rrLoop_eq_requeue hq hreq
    · rw [if_neg hreq, if_neg hreq, ← hfilter1, ← hfilter2, List.append_nil]
      exact rrLoop_eq_finish hq hreq
  · intro _ hmem
    obtain ⟨x, hx, heq⟩ := List.mem_map.mp hmem
    have hx' : x ∈ rest ++ pending := by
      rcases List.mem_append.mp hx with hx1 | hx2
      · exact List.mem_append.mpr (Or.inl hx1)
      · exact List.mem_append.mpr (Or.inr (List.mem_of_mem_filter hx2))
    rw [List.cons_append, List.map_cons, List.nodup_cons] at hN
    exact hN.1 (List.mem_map.mpr ⟨x, hx', heq⟩)

/-- Witness for C2: `A(0,5)` running with quantum 2 while `B(1,2)` and
`C(3,2)` are pending — `B` (arrival in `(0,2]`) is enqueued before the
requeued `A`, and `C` stays pending. -/
theorem claim_C2_witness :
    (([⟨"B", 1, 2, 1⟩, ⟨"C", 3, 2, 1⟩] : List Process).Pairwise
        (fun a b => a.arrival ≤ b.arrival) ∧
      (∀ p ∈ ([⟨"B", 1, 2, 1⟩, ⟨"C", 3, 2, 1⟩] : List Process), 0 < p.arrival) ∧
      ((([⟨"A", 0, 5, 1⟩] ++ [⟨"B", 1, 2, 1⟩, ⟨"C", 3, 2, 1⟩] : List Process)).map
        (fun p => p.id)).Nodup) ∧
    rrLoop 2 (by omega) [⟨"A", 0, 5, 1⟩] [⟨"B", 1, 2, 1⟩, ⟨"C", 3, 2, 1⟩]
        [("A", 5), ("B", 2), ("C", 2)] 0
      = Segment.mk "A" 0
          (0 + min 2 ((mapGet [("A", 5), ("B", 2), ("C", 2)] "A").getD 0)) ::
        rrLoop 2 (by omega)
          ([]
            ++ ([⟨"B", 1, 2, 1⟩, ⟨"C", 3, 2, 1⟩] : List Process).filter
              (fun p => 0 < p.arrival
                ∧ p.arrival ≤ 0 + min 2 ((mapGet [("A", 5), ("B", 2), ("C", 2)] "A").getD 0))
            ++ (if 0 < (mapGet [("A", 5), ("B", 2), ("C", 2)] "A").getD 0
                  - min 2 ((mapGet [("A", 5), ("B", 2), ("C", 2)] "A").getD 0)
                then [⟨"A", 0, 5, 1⟩] else []))
          (([⟨"B", 1, 2, 1⟩, ⟨"C", 3, 2, 1⟩] : List Process).filter
            (fun p => 0 + min 2 ((mapGet [("A", 5), ("B", 2), ("C", 2)] "A").getD 0)
              < p.arrival))
          (if 0 < (mapGet [("A", 5), ("B", 2), ("C", 2)] "A").getD 0
              - min 2 ((mapGet [("A", 5), ("B", 2), ("C", 2)] "A").getD 0)
            then mapSet [("A", 5), ("B", 2), ("C", 2)] "A"
              ((mapGet [("A", 5), ("B", 2), ("C", 2)] "A").getD 0
                - min 2 ((mapGet [("A", 5), ("B", 2), ("C", 2)] "A").getD 0))
            else mapErase [("A", 5), ("B", 2), ("C", 2)] "A")
          (0 + min 2 ((mapGet [("A", 5), ("B", 2), ("C", 2)] "A").getD 0)) := by
  have h := claim_C2 2 (by omega) ⟨"A", 0, 5, 1⟩ [] [⟨"B", 1, 2, 1⟩, ⟨"C", 3, 2, 1⟩]
    [("A", 5), ("B", 2), ("C", 2)] 0 (by decide) (by decide) (by decide)
  exact ⟨⟨by decide, by decide, by decide⟩, h.1⟩

/-- Fuel-indexed variant of `fcfsGo`: `none` when the fuel runs out, so
`∃ fuel, … = some …` expresses termination of the loop. -/
def fcfsGoF : Nat → Nat → List Process → Option (List Segment)
  | 0, _, _ => none
  | _ + 1, _, [] => some []
  | fuel + 1, time, p :: rest =>
    if time < p.arrival then
      (fcfsGoF fuel (p.arrival + p.burst) rest).map
        (fun segs => Segment.mk "IDLE" time p.arrival ::
          Segment.mk p.id p.arrival (p.arrival + p.burst) :: segs)
    else
      (fcfsGoF fuel (time + p.burst) rest).map
        (fun segs => Segment.mk p.id time (time + p.burst) :: segs)

/-- Fuel-indexed variant of `readyRun`. -/
def readyRunF (le : Process → Process → Bool) :
    Nat → List Process → List Process → Nat → Option (List Segment)
  | 0, _, _, _ => none
  | fuel + 1, pending, ready, time =>
    match sortBy le (ready ++ pending.takeWhile (fun p => p.arrival ≤ time)) with
    | [] =>
      match pending.dropWhile (fun p => p.arrival ≤ time) with
      | [] => some []
      | p :: rest =>
        (readyRunF le fuel (p :: rest) [] p.arrival).map
          (fun segs => Segment.mk "IDLE" time p.arrival :: segs)
    | picked :: rs =>
      (readyRunF le fuel (pending.dropWhile (fun p => p.arrival ≤ time)) rs
        (time + picked.burst)).map
        (fun segs => Segment.mk picked.id time (time + picked.burst) :: segs)

/-- Fuel-indexed variant of `rrLoop` (no positivity assumption on the
quantum is needed: with fuel the function is total regardless). -/
def rrLoopF (q : Nat) :
    Nat → List Process → List Process → BurstMap → Nat → Option (List Segment)
  | 0, _, _, _, _ => none
  | _ + 1, [], [], _, _ => some []
  | fuel + 1, [], p :: rest, m, time =>
    if time < p.arrival then
      (rrLoopF q fuel ((p :: rest).takeWhile (fun x => x.arrival ≤ p.arrival))
        ((p :: rest).dropWhile (fun x => x.arrival ≤ p.arrival)) m p.arrival).map
        (fun segs => Segment.mk "IDLE" time p.arrival :: segs)
    else
      rrLoopF q fuel ((p :: rest).takeWhile (fun x => x.arrival ≤ p.arrival))
        ((p :: rest).dropWhile (fun x => x.arrival ≤ p.arrival)) m p.arrival
  | fuel + 1, current :: rest, pending, m, time =>
    let rem := (mapGet m current.id).getD 0
    let slice := min q rem
    let time' := time + slice
    if 0 < rem - slice then
      (rrLoopF q fuel
        (rest ++ pending.takeWhile (fun x => x.arrival ≤ time') ++ [current])
        (pending.dropWhile (fun x => x.arrival ≤ time'))
        (mapSet m current.id (rem - slice)) time').map
        (fun segs => Segment.mk current.id time time' :: segs)
    else
      (rrLoopF q fuel
        (rest ++ pending.takeWhile (fun x => x.arrival ≤ time'))
        (pending.dropWhile (fun x => x.arrival ≤ time'))
        (mapErase m current.id) time').map
        (fun segs => Segment.mk current.id time time' :: segs)

theorem fcfsGoF_total : ∀ (ps : List Process) (time : Nat),
    ∃ fuel, fcfsGoF fuel time ps = some (fcfsGo time ps) := by
  intro ps
  induction ps with
  | nil => intro time; exact ⟨1, rfl⟩
  | cons p rest ih =>
    intro time
    by_cases ht : time < p.arrival
    · obtain ⟨f, hf⟩ := ih (p.arrival + p.burst)
      refine ⟨f + 1, ?_⟩
      simp only [fcfsGoF, fcfsGo, if_pos ht, hf]
      rfl
    · obtain ⟨f, hf⟩ := ih (time + p.burst)
      refine ⟨f + 1, ?_⟩
      simp only [fcfsGoF, fcfsGo, if_neg ht, hf]
      rfl

theorem readyRunF_total (le : Process → Process → Bool) :
    ∀ (pending ready : List Process) (time : Nat),
    ∃ fuel, readyRunF le fuel pending ready time = some (readyRun le pending ready time) := by
  intro pending ready time
  induction pending, ready, time using readyRun.induct le with
  | case1 pending ready time moved pending' hs hp =>
    have hs' : sortBy le (ready ++ pending.takeWhile (fun p => p.arrival ≤ time)) = [] := hs
    have hp' : pending.dropWhile (fun p => p.arrival ≤ time) = [] := hp
    refine ⟨1, ?_⟩
    rw [readyRun_eq_nil hs' hp']
    simp only [readyRunF, hs', hp']
  | case2 pending ready time moved pending' hs p rest hp ih =>
    have hs' : sortBy le (ready ++ pending.takeWhile (fun x => x.arrival ≤ time)) = [] := hs
    have hp' : pending.dropWhile (fun x => x.arrival ≤ time) = p :: rest := hp
    obtain ⟨f, hf⟩ := ih
    refine ⟨f + 1, ?_⟩
    rw [readyRun_eq_idle hs' hp']
    simp only [readyRunF, hs', hp', hf]
    rfl
  | case3 pending ready time moved pending' picked rs hs ih =>
    have hs' : sortBy le (ready ++ pending.takeWhile (fun x => x.arrival ≤ time))
        = picked :: rs := hs
    obtain ⟨f, hf⟩ := ih
    refine ⟨f + 1, ?_⟩
    rw [readyRun_eq_pick hs']
    simp only [readyRunF, hs', hf]
    rfl

theorem rrLoopF_total (q : Nat) (hq : 1 ≤ q) :
    ∀ (queue pending : List Process) (m : BurstMap) (time : Nat),
    ∃ fuel, rrLoopF q fuel queue pending m time = some (rrLoop q hq queue pending m time) := by
  intro queue pending m time
  induction queue, pending, m, time using rrLoop.induct q hq with
  | case1 m time =>
    refine ⟨1, ?_⟩
    rw [rrLoop_eq_nil]
    rfl
  | case2 p rest m time nextArrival moved pending' ht ih =>
    obtain ⟨f, hf⟩ := ih
    refine ⟨f + 1, ?_⟩
    rw [rrLoop_eq_idle hq ht]
    simp only [rrLoopF]
    rw [if_pos ht]
    have hf' : rrLoopF q f ((p :: rest).takeWhile (fun x => x.arrival ≤ p.arrival))
        ((p :: rest).dropWhile (fun x => x.arrival ≤ p.arrival)) m p.arrival
        = some (rrLoop q hq ((p :: rest).takeWhile (fun x => x.arrival ≤ p.arrival))
          ((p :: rest).dropWhile (fun x => x.arrival ≤ p.arrival)) m p.arrival) := hf
    rw [hf']
    rfl
  | case3 p rest m time nextArrival moved pending' ht ih =>
    obtain ⟨f, hf⟩ := ih
    refine ⟨f + 1, ?_⟩
    rw [rrLoop_eq_jump hq ht]
    simp only [rrLoopF]
    rw [if_neg ht]
    exact hf
  | case4 current rest pending m time rem slice time' moved pending' hrun ih =>
    obtain ⟨f, hf⟩ := ih
    refine ⟨f + 1, ?_⟩
    rw [rrLoop_eq_requeue hq hrun]
    simp only [rrLoopF]
    rw [if_pos hrun]
    have hf' : rrLoopF q f
        (rest ++ pending.takeWhile
          (fun x => x.arrival ≤ time + min q ((mapGet m current.id).getD 0)) ++ [current])
        (pending.dropWhile
          (fun x => x.arrival ≤ time + min q ((mapGet m current.id).getD 0)))
        (mapSet m current.id
          ((mapGet m current.id).getD 0 - min q ((mapGet m current.id).getD 0)))
        (time + min q ((mapGet m current.id).getD 0))
        = some (rrLoop q hq
          (rest ++ pending.takeWhile
            (fun x => x.arrival ≤ time + min q ((mapGet m current.id).getD 0)) ++ [current])
          (pending.dropWhile
            (fun x => x.arrival ≤ time + min q ((mapGet m current.id).getD 0)))
          (mapSet m current.id
            ((mapGet m current.id).getD 0 - min q ((mapGet m current.id).getD 0)))
          (time + min q ((mapGet m current.id).getD 0))) := hf
    rw [hf']
    rfl
  | case5 current rest pending m time rem slice time' moved pending' hdone ih =>
    obtain ⟨f, hf⟩ := ih
    refine ⟨f + 1, ?_⟩
    rw [rrLoop_eq_finish hq hdone]
    simp only [rrLoopF]
    rw [if_neg hdone]
    have hf' : rrLoopF q f
        (rest ++ pending.takeWhile
          (fun x => x.arrival ≤ time + min q ((mapGet m current.id).getD 0)))
        (pending.dropWhile
          (fun x => x.arrival ≤ time + min q ((mapGet m current.id).getD 0)))
        (mapErase m current.id)
        (time + min q ((mapGet m current.id).getD 0))
        = some (rrLoop q hq
          (rest ++ pending.takeWhile
            (fun x => x.arrival ≤ time + min q ((mapGet m current.id).getD 0)))
          (pending.dropWhile
            (fun x => x.arrival ≤ time + min q ((mapGet m current.id).getD 0)))
          (mapErase m current.id)
          (time + min q ((mapGet m current.id).getD 0))) := hf
    rw [hf']
    rfl

/-- C8: all four policy functions terminate on every well-formed process
set (unique ids, arrival ≥ 0, burst ≥ 1) with quantum `q ≥ 1`, and never
throw.  Termination is expressed through the fuel-indexed variants
(`fcfsGoF`, `readyRunF`, `rrLoopF`), which return `none` exactly when
the corresponding source loop would still be running: for every input
some finite fuel suffices and yields the (total, exception-free) result
of the policy function.  The underlying measures are the ones of the
source argument: time advances on every slice, the pending index only
moves forward, and the queue shrinks on dequeue and grows only by the
finitely many arrivals. -/
theorem claim_C8 (ps : List Process) (q : Nat) (hq : 1 ≤ q)
    (hids : (ps.map (fun p => p.id)).Nodup)
    (hb : ∀ p ∈ ps, 1 ≤ p.burst) :
    (∃ fuel, fcfsGoF fuel 0 (sortBy byArrival ps) = some (scheduleFCFS ps)) ∧
    (∃ fuel, readyRunF byBurst fuel (sortBy byArrival ps) [] 0 = some (scheduleSJF ps)) ∧
    (∃ fuel, readyRunF prioLe fuel (sortBy byArrival ps) [] 0
      = some (schedulePriority ps)) ∧
    (∃ fuel, rrLoopF q fuel ((sortBy byArrival ps).takeWhile (fun p => p.arrival ≤ 0))
        ((sortBy byArrival ps).dropWhile (fun p => p.arrival ≤ 0))
        (buildMap (sortBy byArrival ps)) 0
      = some (scheduleRoundRobin ps q hq)) :=
  ⟨fcfsGoF_total (sortBy byArrival ps) 0,
    readyRunF_total byBurst (sortBy byArrival ps) [] 0,
    readyRunF_total prioLe (sortBy byArrival ps) [] 0,
    rrLoopF_total q hq _ _ _ 0⟩

/-- Witness for C8 at the demo set with quantum 2. -/
theorem claim_C8_witness :
    ((demoProcs.map (fun p => p.id)).Nodup ∧ (∀ p ∈ demoProcs, 1 ≤ p.burst)
      ∧ (1 : Nat) ≤ 2) ∧
    ((∃ fuel, fcfsGoF fuel 0 (sortBy byArrival demoProcs)
        = some (scheduleFCFS demoProcs)) ∧
      (∃ fuel, readyRunF byBurst fuel (sortBy byArrival demoProcs) [] 0
        = some (scheduleSJF demoProcs)) ∧
      (∃ fuel, readyRunF prioLe fuel (sortBy byArrival demoProcs) [] 0
        = some (schedulePriority demoProcs)) ∧
      (∃ fuel, rrLoopF 2 fuel
          ((sortBy byArrival demoProcs).takeWhile (fun p => p.arrival ≤ 0))
          ((sortBy byArrival demoProcs).dropWhile (fun p => p.arrival ≤ 0))
          (buildMap (sortBy byArrival demoProcs)) 0
        = some (scheduleRoundRobin demoProcs 2 (by omega)))) := by
  have h := claim_C8 demoProcs 2 (by omega) (by decide) (by decide)
  exact ⟨⟨by decide, by decide, by omega⟩, h⟩
